import Mathlib

/-!
Verification development for the document-sectioning and relevance-ranking
pipeline of `backend/main_round1b.py`.

The Python functions `extract_document_sections`, `calculate_relevance`,
`extract_keywords` and the ranking part of `process_single_test_case` are
embedded as executable Lean definitions.  Floating point coordinates and
scores are modelled by `ℚ`; Python's stable `list.sort(key=...)` is modelled
by `List.insertionSort` with the key-induced total preorder (any stable sort
with respect to a total preorder computes the same list); Python strings are
modelled by Lean `String` (a list of characters) with Python's `strip`,
`lower`, `split`, `join` and the regular expressions used by the source
re-implemented character by character.
-/

/-! ### Character and string utilities (models of the Python primitives) -/

/-- Model of Python's whitespace class (used by `str.strip`, `str.split` and
the regex class `\s`). -/
def isWS (c : Char) : Bool :=
  c == ' ' || c == '\t' || c == '\n' || c == '\r' || c == '\x0b' || c == '\x0c'

/-- Model of the regex word-character class `\w` (ASCII view). -/
def isWordChar (c : Char) : Bool :=
  c.isAlphanum || c == '_'

/-- Model of Python `str.strip()`: drop leading and trailing whitespace. -/
def pystrip (s : String) : String :=
  ⟨((s.data.dropWhile isWS).reverse.dropWhile isWS).reverse⟩

/-- Model of Python `str.lower()`. -/
def pylower (s : String) : String :=
  ⟨s.data.map Char.toLower⟩

/-- Model of Python `sep.join(parts)`. -/
def joinSep (sep : String) : List String → String
  | [] => ""
  | [s] => s
  | s :: rest => s ++ sep ++ joinSep sep rest

/-- Maximal runs of characters satisfying `p`, in order; characters not
satisfying `p` act as separators and are dropped.  `cur` is the current run,
reversed. -/
def runsByAux (p : Char → Bool) : List Char → List Char → List (List Char)
  | cur, [] => match cur with
    | [] => []
    | _ => [cur.reverse]
  | cur, c :: rest =>
    if p c then runsByAux p (c :: cur) rest
    else match cur with
      | [] => runsByAux p [] rest
      | _ => cur.reverse :: runsByAux p [] rest

/-- Maximal runs of characters satisfying `p`. -/
def runsBy (p : Char → Bool) (cs : List Char) : List (List Char) :=
  runsByAux p [] cs

/-- Model of `re.findall(r'\b\w+\b', s)`: the maximal word-character runs. -/
def findallWords (s : String) : List String :=
  (runsBy isWordChar s.data).map (fun cs => (⟨cs⟩ : String))

/-- Model of Python `str.split()` (split on whitespace runs, no empties). -/
def pysplit (s : String) : List String :=
  (runsBy (fun c => !isWS c) s.data).map (fun cs => (⟨cs⟩ : String))

/-- Substring test: does `n` occur as a contiguous run inside `h`?
Models Python's `in` operator on strings. -/
def startsWithSub : List Char → List Char → Bool
  | [], _ => true
  | _ :: _, [] => false
  | a :: as, b :: bs => a == b && startsWithSub as bs

/-- Model of Python `n in h` for strings (substring containment). -/
def hasSub (n : List Char) : List Char → Bool
  | [] => startsWithSub n []
  | c :: t => startsWithSub n (c :: t) || hasSub n t

/-- Deduplication keeping the first occurrence of each element, in first
encounter order (models the element order of a Python `dict`/`Counter` whose
keys are inserted while scanning a list). -/
def firstDedupAux (seen : List String) : List String → List String
  | [] => []
  | x :: xs =>
    if seen.contains x then firstDedupAux seen xs
    else x :: firstDedupAux (x :: seen) xs

/-- Distinct elements of `l` in first-encounter order. -/
def firstDedup (l : List String) : List String :=
  firstDedupAux [] l

/-! ### Layout model (input supplied by PyMuPDF in the source) -/

/-- A bounding box `(x0, y0, x1, y1)`; `y0` is the top, `y1` the bottom. -/
structure Rect where
  x0 : ℚ
  y0 : ℚ
  x1 : ℚ
  y1 : ℚ
  deriving DecidableEq, Repr

/-- One line of a text block: its bbox and the texts of its spans. -/
structure Line where
  bbox : Rect
  spans : List String
  deriving DecidableEq, Repr

/-- One block of `page.get_text("dict")`: its type (0 = text), bbox, lines. -/
structure Block where
  type : Nat
  bbox : Rect
  lines : List Line
  deriving DecidableEq, Repr

/-- One page: its list of blocks. -/
structure Page where
  blocks : List Block
  deriving DecidableEq, Repr

/-- One entry of the outline returned by `extract_outline_from_pdf`. -/
structure OutlineEntry where
  text : String
  level : String
  page : Nat
  deriving DecidableEq, Repr

/-- A parsed PDF document: its pages and its extracted outline. -/
structure PdfDoc where
  pages : List Page
  outline : List OutlineEntry
  deriving DecidableEq, Repr

/-- The items of `all_content_items`: text blocks and heading markers.
A heading marker carries the placeholder bbox `(0,0,0,0)` in the source, so
its sorting position (`bbox[1]`) is `0`. -/
inductive LayoutItem where
  | text (txt : String) (page : Nat) (bbox : Rect)
  | heading (txt : String) (level : String) (page : Nat)
  deriving DecidableEq, Repr

/-- The page of an item (`item["page"]`). -/
def LayoutItem.page : LayoutItem → Nat
  | .text _ p _ => p
  | .heading _ _ p => p

/-- `item["bbox"][1]`: the vertical top; `0` for heading markers. -/
def LayoutItem.top : LayoutItem → ℚ
  | .text _ _ bb => bb.y0
  | .heading _ _ _ => 0

/-- `item["bbox"][3]`: the vertical bottom; `0` for heading markers. -/
def LayoutItem.bottom : LayoutItem → ℚ
  | .text _ _ bb => bb.y1
  | .heading _ _ _ => 0

/-- Is the item a text block? -/
def LayoutItem.isText : LayoutItem → Bool
  | .text _ _ _ => true
  | .heading _ _ _ => false

/-- The text of a text-block item, `none` for heading markers. -/
def LayoutItem.textOf : LayoutItem → Option String
  | .text t _ _ => some t
  | .heading _ _ _ => none

/-! ### `extract_document_sections` -/

/-- The line heights gathered for one page (lines of its type-0 blocks,
`line['bbox'][3] - line['bbox'][1]`). -/
def lineHeights (pg : Page) : List ℚ :=
  ((pg.blocks.filter (fun b => b.type == 0)).flatMap (fun b => b.lines)).map
    (fun l => l.bbox.y1 - l.bbox.y0)

/-- The value of the Python variable `avg_line_height` after the page loop:
it starts at the default `12` and is overwritten by each page that has at
least one line, so the final value is the mean line height of the last such
page. -/
def lastAvgLineHeight (doc : PdfDoc) : ℚ :=
  doc.pages.foldl
    (fun avg pg =>
      let hs := lineHeights pg
      if hs.isEmpty then avg else hs.sum / hs.length)
    12

/-- `gap_threshold = avg_line_height * 2.5`, computed once for the whole
document after the page loop. -/
def gapThreshold (doc : PdfDoc) : ℚ :=
  lastAvgLineHeight doc * 2.5

/-- Modelled from the spec: the per-page average line height (mean of the
line heights on that page, fallback `12` when the page has no lines).  This
is the quantity the spec claims the gap threshold is recomputed from for
each page; it is used only to state claims against the code's single
document-wide threshold. -/
def specPageAvgLineHeight (pg : Page) : ℚ :=
  let hs := lineHeights pg
  if hs.isEmpty then 12 else hs.sum / hs.length

/-- `block_text`: concatenation of all span texts of a block. -/
def blockText (b : Block) : String :=
  joinSep "" (b.lines.flatMap (fun l => l.spans))

/-- The text items produced for one page (1-based page number `pageNo`):
one item per type-0 block whose stripped text is non-empty. -/
def textItemsOfPage (pageNo : Nat) (pg : Page) : List LayoutItem :=
  (pg.blocks.filter (fun b => b.type == 0)).filterMap
    (fun b =>
      let t := pystrip (blockText b)
      if t == "" then none else some (.text t pageNo b.bbox))

/-- `all_content_items` before sorting: the text items of all pages in page
order, followed by one heading marker per outline entry. -/
def allContentItems (doc : PdfDoc) : List LayoutItem :=
  (doc.pages.enum.flatMap (fun p => textItemsOfPage (p.1 + 1) p.2)) ++
    doc.outline.map (fun h => .heading h.text h.level h.page)

/-- The sort key order of `all_content_items.sort(key=lambda x: (x["page"],
x["bbox"][1]))`: lexicographic on (page, vertical top). -/
def itemLe (a b : LayoutItem) : Prop :=
  a.page < b.page ∨ (a.page = b.page ∧ a.top ≤ b.top)

instance : DecidableRel itemLe := fun a b => by
  unfold itemLe; exact inferInstance

/-- `all_content_items` after the stable sort by (page, top). -/
def sortedItems (doc : PdfDoc) : List LayoutItem :=
  List.insertionSort itemLe (allContentItems doc)

/-- A section record as built by `extract_document_sections`. -/
structure Section where
  document : String
  page_number : Nat
  section_title : String
  section_text : String
  level : String
  deriving DecidableEq, Repr

/-- The scan state of the sectioning loop: current title, level, accumulated
text parts and start page. -/
structure ScanState where
  title : String
  level : String
  parts : List String
  startPage : Nat
  deriving DecidableEq, Repr

/-- The initial scan state. -/
def initState : ScanState :=
  ⟨"Document Start", "H0", [], 1⟩

/-- Flushing the accumulated state as a section
(`"\n".join(current_section_text_parts)`). -/
def mkSection (name : String) (st : ScanState) : Section :=
  ⟨name, st.startPage, st.title, joinSep "\n" st.parts, st.level⟩

/-- `is_section_break` for the current item given the previous item:
true for heading markers, and for a text block whose predecessor is a text
block on the same page with a vertical gap above the threshold. -/
def isBreak (prev : Option LayoutItem) (it : LayoutItem) (θ : ℚ) : Bool :=
  match it with
  | .heading _ _ _ => true
  | .text _ pg bb =>
    match prev with
    | some (.text _ ppg pbb) => ppg == pg && decide (bb.y0 - pbb.y1 > θ)
    | _ => false

/-- One iteration of the sectioning loop: possibly flush, then update the
state from the current item exactly as the source does. -/
def sectionizeStep (name : String) (θ : ℚ) (prev : Option LayoutItem)
    (st : ScanState) (it : LayoutItem) : List Section × ScanState :=
  let brk := isBreak prev it θ
  let flushed := if brk && !st.parts.isEmpty then
      ([mkSection name st], { st with parts := [] })
    else ([], st)
  let st1 := flushed.2
  let st2 := match it with
    | .heading t l p => { st1 with title := t, level := l, startPage := p }
    | .text _ _ _ => st1
  let st3 := match it with
    | .text txt p _ =>
      let stx := if brk then { st2 with title := "Content", startPage := p } else st2
      { stx with parts := stx.parts ++ [txt] }
    | .heading _ _ _ => st2
  (flushed.1, st3)

/-- The sectioning loop over the remaining items, carrying the previous item
(for the gap test) and the scan state. -/
def sectionizeRun (name : String) (θ : ℚ) (prev : Option LayoutItem)
    (st : ScanState) : List LayoutItem → List Section × ScanState
  | [] => ([], st)
  | it :: rest =>
    let step := sectionizeStep name θ prev st it
    let tail := sectionizeRun name θ (some it) step.2 rest
    (step.1 ++ tail.1, tail.2)

/-- `extract_document_sections`: build the items, sort, scan, final flush.
`name` stands for `pdf_path.name`. -/
def extract_document_sections (name : String) (doc : PdfDoc) : List Section :=
  let items := sortedItems doc
  let θ := gapThreshold doc
  let res := sectionizeRun name θ none initState items
  res.1 ++ (if res.2.parts.isEmpty then [] else [mkSection name res.2])

/-! ### Instrumented sectionizer

The instrumented scan is the same algorithm additionally recording, for each
emitted section, the list of accumulated text parts (before `"\n".join`) and
the governing boundary: the most recent item at which `is_section_break`
held before the section was flushed (`none` when no boundary occurred yet).
-/

/-- A section together with its ghost data: raw parts and governing
boundary. -/
structure ISection where
  document : String
  page_number : Nat
  section_title : String
  parts : List String
  level : String
  gov : Option LayoutItem
  deriving DecidableEq, Repr

/-- Scan state plus the most recent boundary item. -/
structure IScanState where
  title : String
  level : String
  parts : List String
  startPage : Nat
  lastB : Option LayoutItem
  deriving DecidableEq, Repr

/-- Initial instrumented state. -/
def initIState : IScanState :=
  ⟨"Document Start", "H0", [], 1, none⟩

/-- Forget the ghost field. -/
def projState (st : IScanState) : ScanState :=
  ⟨st.title, st.level, st.parts, st.startPage⟩

/-- Flush the instrumented state. -/
def mkISection (name : String) (st : IScanState) : ISection :=
  ⟨name, st.startPage, st.title, st.parts, st.level, st.lastB⟩

/-- Forget the ghost fields of an instrumented section, joining the parts
with newlines as the source does. -/
def ISection.toSection (s : ISection) : Section :=
  ⟨s.document, s.page_number, s.section_title, joinSep "\n" s.parts, s.level⟩

/-- Instrumented version of `sectionizeStep`. -/
def isectionizeStep (name : String) (θ : ℚ) (prev : Option LayoutItem)
    (st : IScanState) (it : LayoutItem) : List ISection × IScanState :=
  let brk := isBreak prev it θ
  let flushed := if brk && !st.parts.isEmpty then
      ([mkISection name st], { st with parts := [] })
    else ([], st)
  let st1 := flushed.2
  let stb := if brk then { st1 with lastB := some it } else st1
  let st2 := match it with
    | .heading t l p => { stb with title := t, level := l, startPage := p }
    | .text _ _ _ => stb
  let st3 := match it with
    | .text txt p _ =>
      let stx := if brk then { st2 with title := "Content", startPage := p } else st2
      { stx with parts := stx.parts ++ [txt] }
    | .heading _ _ _ => st2
  (flushed.1, st3)

/-- Instrumented version of `sectionizeRun`. -/
def isectionizeRun (name : String) (θ : ℚ) (prev : Option LayoutItem)
    (st : IScanState) : List LayoutItem → List ISection × IScanState
  | [] => ([], st)
  | it :: rest =>
    let step := isectionizeStep name θ prev st it
    let tail := isectionizeRun name θ (some it) step.2 rest
    (step.1 ++ tail.1, tail.2)

/-- Instrumented version of `extract_document_sections`. -/
def extractISections (name : String) (doc : PdfDoc) : List ISection :=
  let res := isectionizeRun name (gapThreshold doc) none initIState (sortedItems doc)
  res.1 ++ (if res.2.parts.isEmpty then [] else [mkISection name res.2])

/-- The property the instrumentation certifies about titles and levels:
a section governed by a heading carries that heading's text and level,
a section with no governing boundary keeps the initial title and sentinel
level, and a section governed by a gap break carries the generic title. -/
def GovOk (s : ISection) : Prop :=
  match s.gov with
  | none => s.section_title = "Document Start" ∧ s.level = "H0"
  | some (.heading t l _) => s.section_title = t ∧ s.level = l
  | some (.text _ _ _) => s.section_title = "Content"

/-- The state invariant backing `GovOk`. -/
def InvB (st : IScanState) : Prop :=
  match st.lastB with
  | none => st.title = "Document Start" ∧ st.level = "H0"
  | some (.heading t l _) => st.title = t ∧ st.level = l
  | some (.text _ _ _) => st.title = "Content"

/-! ### `calculate_relevance` -/

/-- The persona dictionary as used by the scorer: each of the three keys may
be missing. -/
structure PersonaInfo where
  description : Option String
  role : Option String
  focus_areas : Option String
  deriving DecidableEq, Repr

/-- Python truthiness of `persona_info.get(key)`: a missing key and an empty
string are both falsy. -/
def getTruthy : Option String → Option String
  | some s => if s == "" then none else some s
  | none => none

/-- `all_keywords`: the word tokens of the lowercased job text, unioned with
those of the persona's focus areas when truthy.  The Python `set` is
modelled as a deduplicated list in first-encounter order; only membership
and cardinality of this set are ever used. -/
def allKeywords (persona : PersonaInfo) (job : String) : List String :=
  firstDedup (findallWords (pylower job) ++
    (match getTruthy persona.focus_areas with
     | some f => findallWords (pylower f)
     | none => []))

/-- `text_tokens_lower`. -/
def textTokensLower (text : String) : List String :=
  findallWords (pylower text)

/-- The keywords scoring an exact-token match against the section text
(each contributes `2.0` exactly once). -/
def matchingKeywords (text : String) (persona : PersonaInfo) (job : String) :
    List String :=
  (allKeywords persona job).filter (fun kw => (textTokensLower text).contains kw)

/-- `combined_query`: `". ".join(query_parts)` with the truthy persona
fragments appended to the job text. -/
def combinedQuery (persona : PersonaInfo) (job : String) : String :=
  joinSep ". " ([job] ++
    (match getTruthy persona.description with
     | some d => ["Persona description: " ++ d]
     | none => []) ++
    (match getTruthy persona.role with
     | some r => ["Role: " ++ r]
     | none => []) ++
    (match getTruthy persona.focus_areas with
     | some f => ["Focus areas: " ++ f]
     | none => []))

/-- The optional embedding collaborator.  `sim q t` returns the cosine
similarity of the embeddings of `q` and `t`, or `none` when any part of the
embedding step raises (model unavailable, encode failure, ...). -/
structure EmbedModel where
  sim : String → String → Option ℚ

/-- The score contribution of the embedding step: `(cos + 1) / 2 * 10.0`,
and exactly `0` when there is no model or the step fails (the source
swallows the exception). -/
def embedContribution (nlp : Option EmbedModel) (persona : PersonaInfo)
    (job text : String) : ℚ :=
  match nlp with
  | none => 0
  | some m =>
    match m.sim (combinedQuery persona job) text with
    | none => 0
    | some c => (c + 1) / 2 * 10

/-- The flat `1.0` bonus for short keyword-bearing sections: fewer than 10
whitespace words and some keyword occurring as a substring of the lowercased
text. -/
def shortSectionBonus (text : String) (persona : PersonaInfo) (job : String) : ℚ :=
  if (pysplit text).length < 10 ∧
      (allKeywords persona job).any (fun kw => hasSub kw.data (pylower text).data) then
    1
  else 0

/-- `calculate_relevance`: 2.0 per distinct exact-token keyword match, plus
the embedding contribution, plus the short-section bonus. -/
def calculate_relevance (text : String) (persona : PersonaInfo) (job : String)
    (nlp : Option EmbedModel) : ℚ :=
  2 * ((matchingKeywords text persona job).length : ℚ) +
    embedContribution nlp persona job text +
    shortSectionBonus text persona job

/-- An embedding model whose embedding step always fails. -/
def failModel : EmbedModel :=
  ⟨fun _ _ => none⟩

/-! ### `extract_keywords` -/

/-- Rebuild a contraction: `apostr "aren" "t"` is the source's `aren't`.
(The apostrophe is `Char.ofNat 39`.) -/
def apostr (a b : String) : String :=
  a ++ (⟨[Char.ofNat 39]⟩ : String) ++ b

/-- `STOP_WORDS`, exactly the entries of the source's stop-word string, in
source order. -/
def STOP_WORDS : List String := [
  "a", "about", "above", "after", "again", "against", "all", "am", "an", "and", "any", "are",
  (apostr "aren" "t"), "as", "at", "be", "because", "been", "before", "being", "below",
  "between", "both", "but", "by", (apostr "can" "t"), "cannot", "could",
  (apostr "couldn" "t"), "did", (apostr "didn" "t"), "do", "does", (apostr "doesn" "t"),
  "doing", (apostr "don" "t"), "down", "during", "each", "few", "for", "from", "further",
  "had", (apostr "hadn" "t"), "has", (apostr "hasn" "t"), "have", (apostr "haven" "t"),
  "having", "he", (apostr "he" "d"), (apostr "he" "ll"), (apostr "he" "s"), "her", "here",
  (apostr "here" "s"), "hers", "herself", "him", "himself", "his", "how", (apostr "how" "s"),
  "i", (apostr "i" "d"), (apostr "i" "ll"), (apostr "i" "m"), (apostr "i" "ve"), "if", "in",
  "into", "is", (apostr "isn" "t"), "it", (apostr "it" "s"), "its", "itself",
  (apostr "let" "s"), "me", "more", "most", (apostr "mustn" "t"), "my", "myself", "no", "nor",
  "not", "of", "off", "on", "once", "only", "or", "other", "ought", "our", "ours",
  "ourselves", "out", "over", "own", "same", (apostr "shan" "t"), "she", (apostr "she" "d"),
  (apostr "she" "ll"), (apostr "she" "s"), "should", (apostr "shouldn" "t"), "so", "some",
  "such", "than", "that", (apostr "that" "s"), "the", "their", "theirs", "them", "themselves",
  "then", "there", (apostr "there" "s"), "these", "they", (apostr "they" "d"),
  (apostr "they" "ll"), (apostr "they" "re"), (apostr "they" "ve"), "this", "those",
  "through", "to", "too", "under", "until", "up", "very", "was", (apostr "wasn" "t"), "we",
  (apostr "we" "d"), (apostr "we" "ll"), (apostr "we" "re"), (apostr "we" "ve"), "were",
  (apostr "weren" "t"), "what", (apostr "what" "s"), "when", (apostr "when" "s"), "where",
  (apostr "where" "s"), "which", "while", "who", (apostr "who" "s"), "whom", "why",
  (apostr "why" "s"), "with", (apostr "won" "t"), "would", (apostr "wouldn" "t"), "you",
  (apostr "you" "d"), (apostr "you" "ll"), (apostr "you" "re"), (apostr "you" "ve"), "your",
  "yours", "yourself", "yourselves"]

/-- The tokens of `re.findall(r'\b\w{3,15}\b', text.lower())`: the maximal
word-character runs whose length lies between 3 and 15 (a longer run yields
no match at all, because neither of its ends away from a word boundary can
start or finish a match). -/
def kwTokens (text : String) : List String :=
  ((runsBy isWordChar (pylower text).data).filter
      (fun r => 3 ≤ r.length && r.length ≤ 15)).map (fun cs => (⟨cs⟩ : String))

/-- The candidate keywords: purely alphabetic tokens not in the stop-word
set. -/
def kwWords (text : String) : List String :=
  (kwTokens text).filter
    (fun w => w.data.all Char.isAlpha && !(STOP_WORDS.contains w))

/-- Add one occurrence of `w` to an ordered association list of counts
(insertion at the end on first encounter: the key order of a Python
`Counter`). -/
def bump (w : String) : List (String × Nat) → List (String × Nat)
  | [] => [(w, 1)]
  | (x, c) :: rest => if x == w then (x, c + 1) :: rest else (x, c) :: bump w rest

/-- `collections.Counter(words)` as an ordered association list. -/
def buildCounter (ws : List String) : List (String × Nat) :=
  ws.foldl (fun acc w => bump w acc) []

/-- Count-descending order on counter entries. -/
def countGe (a b : String × Nat) : Prop :=
  b.2 ≤ a.2

instance : DecidableRel countGe := fun a b => Nat.decLe b.2 a.2

/-- `Counter.most_common` without a cutoff: the counter entries stably
sorted by count descending (ties keep first-encounter order). -/
def mostCommonPairs (text : String) : List (String × Nat) :=
  List.insertionSort countGe (buildCounter (kwWords text))

/-- `extract_keywords`. -/
def extract_keywords (text : String) (num_keywords : Nat := 5) : List String :=
  ((mostCommonPairs text).take num_keywords).map Prod.fst

/-! ### Ranking and refinement (`process_single_test_case`, lines 317-334) -/

/-- One entry of `ranked_sections` before the final sort: the relevance
score is still stored in `importance_rank`. -/
structure RankedSection where
  document : String
  page_number : Nat
  section_title : String
  importance_rank : ℚ
  section_text_raw : String
  keywords : List String
  deriving DecidableEq, Repr

/-- One entry of `final_extracted_sections_output`: `importance_rank` is now
the 1-based position. -/
structure FinalSection where
  document : String
  page_number : Nat
  section_title : String
  importance_rank : Nat
  section_text_raw : String
  refined_text : String
  keywords : List String
  deriving DecidableEq, Repr

/-- Score-descending order on ranked sections. -/
def scoreGe (a b : RankedSection) : Prop :=
  b.importance_rank ≤ a.importance_rank

instance : DecidableRel scoreGe := fun a b =>
  inferInstanceAs (Decidable (b.importance_rank ≤ a.importance_rank))

/-- `ranked_sections.sort(key=lambda x: x["importance_rank"], reverse=True)`:
Python's stable descending sort, modelled by the stable insertion sort for
the ≥-on-score total preorder. -/
def rankSectionsSorted (l : List RankedSection) : List RankedSection :=
  List.insertionSort scoreGe l

/-- Sentence-terminal punctuation (`[.!?]`). -/
def isTermCh (c : Char) : Bool :=
  c == '.' || c == '!' || c == '?'

/-- Is the first character (if any) whitespace? -/
def headIsWS : List Char → Bool
  | [] => false
  | c :: _ => isWS c

/-- The scan behind `re.split(r'(?<=[.!?])\s+', s)`.  In normal mode a
terminal-punctuation character followed by whitespace ends the current
piece; the whitespace run is then consumed in skipping mode. -/
def ssGo (skipping : Bool) (cur : List Char) : List Char → List (List Char)
  | [] => [cur.reverse]
  | c :: rest =>
    if skipping && isWS c then ssGo true cur rest
    else if isTermCh c && headIsWS rest then (c :: cur).reverse :: ssGo true [] rest
    else ssGo false (c :: cur) rest

/-- `re.split(r'(?<=[.!?])\s+', s)` on a character list. -/
def splitSentences (cs : List Char) : List (List Char) :=
  ssGo false [] cs

/-- The sentence split on strings. -/
def splitSentencesStr (s : String) : List String :=
  (splitSentences s.data).map (fun cs => (⟨cs⟩ : String))

/-- `" ".join(sentences[:min(3, len(sentences))])`. -/
def refineText (t : String) : String :=
  joinSep " " ((splitSentencesStr t).take (min 3 (splitSentencesStr t).length))

/-- The final output loop: sort by score descending, then re-assign
`importance_rank := i + 1` and attach the refined text. -/
def finalizeSections (l : List RankedSection) : List FinalSection :=
  (rankSectionsSorted l).enum.map (fun p =>
    { document := p.2.document
      page_number := p.2.page_number
      section_title := p.2.section_title
      importance_rank := p.1 + 1
      section_text_raw := p.2.section_text_raw
      refined_text := refineText p.2.section_text_raw
      keywords := p.2.keywords })

/-- The number of adjacent (terminal punctuation, whitespace) pairs: one per
`1` returned by `tbPair`. -/
def tbPair (a b : Char) : Nat :=
  if isTermCh a && isWS b then 1 else 0

/-- Counts the positions where a sentence split occurs: the number of
pieces `splitSentences` returns is always `countTB cs + 1`. -/
def countTB : List Char → Nat
  | [] => 0
  | [_] => 0
  | a :: b :: rest => tbPair a b + countTB (b :: rest)

/-! ### Concrete inputs used by witnesses and counterexamples -/

/-- A document with no pages: the average line height stays at the default
12, so the gap threshold is 30. -/
def emptyDoc : PdfDoc := ⟨[], []⟩

/-- Page 1 of the two-page gap document: two one-line text blocks with line
height 10 and a vertical gap of 30 between them. -/
def gapPage1 : Page :=
  ⟨[⟨0, ⟨0, 0, 10, 10⟩, [⟨⟨0, 0, 10, 10⟩, ["A"]⟩]⟩,
    ⟨0, ⟨0, 40, 10, 50⟩, [⟨⟨0, 40, 10, 50⟩, ["B"]⟩]⟩]⟩

/-- Page 2 of the gap document: one tall one-line block of line height 100. -/
def gapPage2 : Page :=
  ⟨[⟨0, ⟨0, 0, 10, 100⟩, [⟨⟨0, 0, 10, 100⟩, ["C"]⟩]⟩]⟩

/-- The two-page document separating the per-page average (10 on page 1)
from the document-final average (100, from page 2). -/
def gapDoc : PdfDoc := ⟨[gapPage1, gapPage2], []⟩

/-- A one-page document with no outline whose two text blocks are separated
by a gap far above the threshold. -/
def contentDoc : PdfDoc :=
  ⟨[⟨[⟨0, ⟨0, 0, 10, 10⟩, [⟨⟨0, 0, 10, 10⟩, ["A"]⟩]⟩,
      ⟨0, ⟨0, 100, 10, 110⟩, [⟨⟨0, 100, 10, 110⟩, ["B"]⟩]⟩]⟩], []⟩

/-- A one-page document with one heading and one following text block. -/
def headedDoc : PdfDoc :=
  ⟨[⟨[⟨0, ⟨0, 5, 10, 15⟩, [⟨⟨0, 5, 10, 15⟩, ["Body"]⟩]⟩]⟩], [⟨"Intro", "H1", 1⟩]⟩

/-- Is the previous item a text block? (`false` when there is none.) -/
def prevIsText : Option LayoutItem → Bool
  | some it => it.isText
  | none => false

/-- The start pages of everything the scan will still emit from a given
state: the flushed sections in order, plus the final flush when the final
accumulation is non-empty. -/
def runPages (name : String) (θ : ℚ) (prev : Option LayoutItem)
    (st : ScanState) (items : List LayoutItem) : List Nat :=
  ((sectionizeRun name θ prev st items).1.map (fun s => s.page_number)) ++
    (if (sectionizeRun name θ prev st items).2.parts.isEmpty then []
      else [(sectionizeRun name θ prev st items).2.startPage])

instance : IsTotal LayoutItem itemLe := ⟨by
  intro a b
  unfold itemLe
  rcases lt_trichotomy a.page b.page with h | h | h
  · exact Or.inl (Or.inl h)
  · rcases le_total a.top b.top with ht | ht
    · exact Or.inl (Or.inr ⟨h, ht⟩)
    · exact Or.inr (Or.inr ⟨h.symm, ht⟩)
  · exact Or.inr (Or.inl h)⟩

instance : IsTrans LayoutItem itemLe := ⟨by
  intro a b c hab hbc
  unfold itemLe at hab hbc ⊢
  rcases hab with h1 | ⟨h1, h1t⟩
  · rcases hbc with h2 | ⟨h2, h2t⟩
    · exact Or.inl (Nat.lt_trans h1 h2)
    · exact Or.inl (h2 ▸ h1)
  · rcases hbc with h2 | ⟨h2, h2t⟩
    · exact Or.inl (h1 ▸ h2)
    · exact Or.inr ⟨h1.trans h2, h1t.trans h2t⟩⟩

instance : IsTotal (String × Nat) countGe :=
  ⟨fun a b => (Nat.le_total b.2 a.2).elim Or.inl Or.inr⟩

instance : IsTrans (String × Nat) countGe :=
  ⟨fun _ _ _ hab hbc => Nat.le_trans hbc hab⟩

instance : IsTotal RankedSection scoreGe :=
  ⟨fun a b => (le_total b.importance_rank a.importance_rank).elim Or.inl Or.inr⟩

instance : IsTrans RankedSection scoreGe :=
  ⟨fun _ _ _ hab hbc => le_trans hbc hab⟩

/-- The boundary contribution of the junction of two character lists: `1`
when the left list ends with terminal punctuation and the right one starts
with whitespace. -/
def tbJunction (xs ys : List Char) : Nat :=
  match xs.getLast?, ys.head? with
  | some a, some b => tbPair a b
  | _, _ => 0

/-! ### Theorems -/

/-- **C1** (amended).  In the sorted layout-item stream, when the current
item and the previous item are both text blocks on the same page and the
current item's top minus the previous item's bottom exceeds the gap
threshold — which in the code is `2.5 ×` the *document-final* average line
height (`avg_line_height` as left by the page loop: the mean of the last
page that has lines, fallback 12), a single value for the whole scan, *not*
the per-page average the original claim states — then `is_section_break`
holds at the current item and, the accumulated text being non-empty, it is
flushed at once as a completed `Section`. -/
theorem C1_theorem (doc : PdfDoc) (name : String) (st : ScanState)
    (ptxt : String) (ppg : Nat) (pbb : Rect)
    (ctxt : String) (cpg : Nat) (cbb : Rect) (rest : List LayoutItem)
    (hpage : ppg = cpg)
    (hgap : cbb.y0 - pbb.y1 > gapThreshold doc)
    (hparts : st.parts ≠ []) :
    isBreak (some (.text ptxt ppg pbb)) (.text ctxt cpg cbb) (gapThreshold doc) = true ∧
    (sectionizeRun name (gapThreshold doc) (some (.text ptxt ppg pbb)) st
        (.text ctxt cpg cbb :: rest)).1 =
      mkSection name st ::
        (sectionizeRun name (gapThreshold doc) (some (.text ctxt cpg cbb))
          { st with title := "Content", startPage := cpg, parts := [ctxt] } rest).1 := by
  have hbrk : isBreak (some (.text ptxt ppg pbb)) (.text ctxt cpg cbb)
      (gapThreshold doc) = true := by
    simp [isBreak, hpage, hgap]
  refine ⟨hbrk, ?_⟩
  have hne : st.parts.isEmpty = false := by
    rcases hp : st.parts with _ | ⟨a, l⟩
    · exact absurd hp hparts
    · simp [hp]
  simp [sectionizeRun, sectionizeStep, hbrk, hne]

/-- Witness for `C1_theorem` at a concrete document, state and item pair. -/
theorem C1_witness :
    isBreak (some (.text "p" 1 ⟨0, 0, 10, 10⟩)) (.text "c" 1 ⟨0, 50, 10, 60⟩)
        (gapThreshold emptyDoc) = true ∧
    (sectionizeRun "d" (gapThreshold emptyDoc) (some (.text "p" 1 ⟨0, 0, 10, 10⟩))
        ⟨"T", "H0", ["x"], 1⟩ [.text "c" 1 ⟨0, 50, 10, 60⟩]).1 =
      mkSection "d" ⟨"T", "H0", ["x"], 1⟩ ::
        (sectionizeRun "d" (gapThreshold emptyDoc) (some (.text "c" 1 ⟨0, 50, 10, 60⟩))
          ⟨"Content", "H0", ["c"], 1⟩ []).1 :=
  C1_theorem emptyDoc "d" ⟨"T", "H0", ["x"], 1⟩ "p" 1 ⟨0, 0, 10, 10⟩ "c" 1
    ⟨0, 50, 10, 60⟩ [] rfl (by with_unfolding_all decide) (by decide)

/-- **C1** counterexample.  In `gapDoc` the sorted stream is
`[A@page1, B@page1, C@page2]`; at `B` the gap (30) exceeds `2.5 ×` the
*per-page* average line height of page 1 (`2.5 × 10 = 25`), and the
accumulated text `["A"]` is non-empty (as the third conjunct shows, a scan
using the claim's per-page threshold would flush `"A"` exactly there) — yet
the code, whose single threshold is `2.5 × 100 = 250` from page 2, triggers
no boundary at `B` and emits one merged section.  This refutes the claim
that the per-page average (recomputed per page) governs gap detection. -/
theorem C1_counterexample :
    sortedItems gapDoc =
      [.text "A" 1 ⟨0, 0, 10, 10⟩, .text "B" 1 ⟨0, 40, 10, 50⟩,
        .text "C" 2 ⟨0, 0, 10, 100⟩] ∧
    (LayoutItem.text "B" 1 ⟨0, 40, 10, 50⟩).top -
        (LayoutItem.text "A" 1 ⟨0, 0, 10, 10⟩).bottom >
      2.5 * specPageAvgLineHeight gapPage1 ∧
    ((sectionizeRun "d" (2.5 * specPageAvgLineHeight gapPage1) none initState
        (sortedItems gapDoc)).1.map (fun s => s.section_text)) = ["A"] ∧
    extract_document_sections "d" gapDoc =
      [⟨"d", 1, "Document Start", "A\nB\nC", "H0"⟩] := by
  refine ⟨?_, ?_, ?_, ?_⟩ <;> with_unfolding_all decide

/-- **C9**.  When the embedding step fails (the model's similarity
computation raises, modelled by `none`), `calculate_relevance` still
returns normally: the score equals the keyword-match term plus the
short-section bonus with an embedding contribution of exactly 0, i.e. the
same value as a run with no model at all. -/
theorem C9_theorem (text : String) (persona : PersonaInfo) (job : String)
    (m : EmbedModel) (hfail : m.sim (combinedQuery persona job) text = none) :
    calculate_relevance text persona job (some m) =
      2 * ((matchingKeywords text persona job).length : ℚ) +
        shortSectionBonus text persona job ∧
    calculate_relevance text persona job (some m) =
      calculate_relevance text persona job none := by
  constructor
  · simp [calculate_relevance, embedContribution, hfail]
  · simp [calculate_relevance, embedContribution, hfail]

/-- Witness for `C9_theorem`: a model that always fails. -/
theorem C9_witness :
    calculate_relevance "x" ⟨none, none, none⟩ "j" (some failModel) =
      2 * ((matchingKeywords "x" ⟨none, none, none⟩ "j").length : ℚ) +
        shortSectionBonus "x" ⟨none, none, none⟩ "j" ∧
    calculate_relevance "x" ⟨none, none, none⟩ "j" (some failModel) =
      calculate_relevance "x" ⟨none, none, none⟩ "j" none :=
  C9_theorem "x" ⟨none, none, none⟩ "j" failModel rfl

/-- `firstDedupAux` produces distinct elements, none of them in `seen`. -/
theorem firstDedupAux_spec (l : List String) :
    ∀ seen : List String, (firstDedupAux seen l).Nodup ∧
      ∀ x ∈ firstDedupAux seen l, x ∉ seen := by
  induction l with
  | nil =>
    intro seen
    refine ⟨by simp [firstDedupAux], ?_⟩
    intro x hx
    simp [firstDedupAux] at hx
  | cons a l ih =>
    intro seen
    by_cases hmem : a ∈ seen
    · simpa [firstDedupAux, hmem] using ih seen
    · obtain ⟨hnd, hout⟩ := ih (a :: seen)
      have hstep : firstDedupAux seen (a :: l) = a :: firstDedupAux (a :: seen) l := by
        simp [firstDedupAux, hmem]
      rw [hstep]
      refine ⟨List.nodup_cons.mpr
        ⟨fun hxa => (hout a hxa) (List.mem_cons_self a seen), hnd⟩, ?_⟩
      intro x hx
      rcases List.mem_cons.mp hx with rfl | hx2
      · exact hmem
      · exact fun hxin => (hout x hx2) (List.mem_cons_of_mem a hxin)

/-- `firstDedup` produces a duplicate-free list. -/
theorem firstDedup_nodup (l : List String) : (firstDedup l).Nodup :=
  (firstDedupAux_spec l []).1

/-- **C6** counterexample.  Two calls with the same section text
`"abcdef"`, the same (absent) embedding model — hence the same embedding
contribution 0 — and the *same* (empty) set of exact-token matching
keywords return different scores: with job `"abc"` the short-section
substring bonus fires (`"abc"` is a substring but not a token of
`"abcdef"`, which has fewer than 10 words), giving score 1, while with job
`""` the score is 0.  The matching set did not shrink (∅ ⊆ ∅) yet the
score drops, so the score is not monotonically non-decreasing in the
matching-keyword set alone. -/
theorem C6_counterexample :
    matchingKeywords "abcdef" ⟨none, none, none⟩ "abc" = [] ∧
    matchingKeywords "abcdef" ⟨none, none, none⟩ "" = [] ∧
    calculate_relevance "abcdef" ⟨none, none, none⟩ "abc" none = 1 ∧
    calculate_relevance "abcdef" ⟨none, none, none⟩ "" none = 0 := by
  refine ⟨?_, ?_, ?_, ?_⟩ <;> with_unfolding_all decide

/-- **C6** (amended).  For section texts of at least 10 whitespace words
(so the short-section substring bonus is identically 0) and with the
embedding contribution held fixed (no model, contribution 0), the score is
exactly `2.0` per distinct matching keyword — each distinct keyword counts
once however often it repeats in the section — and is therefore
monotonically non-decreasing in the set of exact-token matching keywords:
enlarging that set never lowers the returned score. -/
theorem C6_theorem (text : String) (p1 p2 : PersonaInfo) (job1 job2 : String)
    (hlen : 10 ≤ (pysplit text).length)
    (hsub : matchingKeywords text p1 job1 ⊆ matchingKeywords text p2 job2) :
    calculate_relevance text p1 job1 none =
      2 * ((matchingKeywords text p1 job1).length : ℚ) ∧
    calculate_relevance text p2 job2 none =
      2 * ((matchingKeywords text p2 job2).length : ℚ) ∧
    calculate_relevance text p1 job1 none ≤
      calculate_relevance text p2 job2 none := by
  have hb : ∀ p j, shortSectionBonus text p j = 0 := by
    intro p j
    unfold shortSectionBonus
    rw [if_neg]
    rintro ⟨h10, _⟩
    omega
  have e1 : calculate_relevance text p1 job1 none =
      2 * ((matchingKeywords text p1 job1).length : ℚ) := by
    simp [calculate_relevance, embedContribution, hb]
  have e2 : calculate_relevance text p2 job2 none =
      2 * ((matchingKeywords text p2 job2).length : ℚ) := by
    simp [calculate_relevance, embedContribution, hb]
  have hnd : (matchingKeywords text p1 job1).Nodup :=
    (firstDedup_nodup _).filter _
  have hle : (matchingKeywords text p1 job1).length ≤
      (matchingKeywords text p2 job2).length :=
    (hnd.subperm hsub).length_le
  refine ⟨e1, e2, ?_⟩
  rw [e1, e2]
  have hq : ((matchingKeywords text p1 job1).length : ℚ) ≤
      ((matchingKeywords text p2 job2).length : ℚ) := by exact_mod_cast hle
  linarith

/-- Witness for `C6_theorem`: a 10-word section, one matching keyword
versus two. -/
theorem C6_witness :
    calculate_relevance "a b c d e f g h i j" ⟨none, none, none⟩ "a" none =
      2 * ((matchingKeywords "a b c d e f g h i j" ⟨none, none, none⟩ "a").length : ℚ) ∧
    calculate_relevance "a b c d e f g h i j" ⟨none, none, none⟩ "b a" none =
      2 * ((matchingKeywords "a b c d e f g h i j" ⟨none, none, none⟩ "b a").length : ℚ) ∧
    calculate_relevance "a b c d e f g h i j" ⟨none, none, none⟩ "a" none ≤
      calculate_relevance "a b c d e f g h i j" ⟨none, none, none⟩ "b a" none :=
  C6_theorem "a b c d e f g h i j" ⟨none, none, none⟩ ⟨none, none, none⟩ "a" "b a"
    (by with_unfolding_all decide) (by with_unfolding_all decide)

/-- Joining a non-empty list of non-empty strings with newlines yields a
non-empty string. -/
theorem joinSep_nl_ne_empty (ps : List String) (hne : ps ≠ [])
    (hall : ∀ p ∈ ps, p ≠ "") : joinSep "\n" ps ≠ "" := by
  match ps, hne with
  | [p], _ => simpa [joinSep] using hall p (by simp)
  | p :: q :: rest, _ =>
    have hlen : (joinSep "\n" (p :: q :: rest)).length =
        p.length + "\n".length + (joinSep "\n" (q :: rest)).length := by
      simp [joinSep, String.length_append]
    intro h
    rw [h] at hlen
    have h0 : ("" : String).length = 0 := rfl
    have h1 : ("\n" : String).length = 1 := rfl
    rw [h0, h1] at hlen
    omega

/-- The sections flushed by one step: exactly the current accumulation when
a boundary triggers on non-empty parts, nothing otherwise. -/
theorem sectionizeStep_fst (name : String) (θ : ℚ) (prev : Option LayoutItem)
    (st : ScanState) (it : LayoutItem) :
    (sectionizeStep name θ prev st it).1 =
      if isBreak prev it θ && !st.parts.isEmpty then [mkSection name st] else [] := by
  cases it with
  | text txt pg bb =>
    by_cases hbrk : isBreak prev (.text txt pg bb) θ = true
    · simp [sectionizeStep, hbrk]
      split <;> rfl
    · rw [Bool.not_eq_true] at hbrk
      simp [sectionizeStep, hbrk]
  | heading t l pg =>
    simp [sectionizeStep, isBreak]
    split <;> rfl

/-- The accumulated parts after one step: the (possibly cleared) previous
parts, extended by the item's text when it is a text block. -/
theorem sectionizeStep_snd_parts (name : String) (θ : ℚ)
    (prev : Option LayoutItem) (st : ScanState) (it : LayoutItem) :
    (sectionizeStep name θ prev st it).2.parts =
      (if isBreak prev it θ && !st.parts.isEmpty then [] else st.parts) ++
        (match it with
          | .text txt _ _ => [txt]
          | .heading _ _ _ => []) := by
  cases it with
  | text txt pg bb =>
    by_cases hbrk : isBreak prev (.text txt pg bb) θ = true
    · by_cases hp : st.parts.isEmpty = true
      · simp [sectionizeStep, hbrk, hp]
      · rw [Bool.not_eq_true] at hp
        simp [sectionizeStep, hbrk, hp]
    · rw [Bool.not_eq_true] at hbrk
      simp [sectionizeStep, hbrk]
  | heading t l pg =>
    by_cases hp : st.parts.isEmpty = true
    · simp [sectionizeStep, isBreak, hp]
    · rw [Bool.not_eq_true] at hp
      simp [sectionizeStep, isBreak, hp]

/-- The start page after one step: the item's page whenever a boundary
triggered at it, unchanged otherwise. -/
theorem sectionizeStep_snd_startPage (name : String) (θ : ℚ)
    (prev : Option LayoutItem) (st : ScanState) (it : LayoutItem) :
    (sectionizeStep name θ prev st it).2.startPage =
      if isBreak prev it θ then it.page else st.startPage := by
  cases it with
  | text txt pg bb =>
    by_cases hbrk : isBreak prev (.text txt pg bb) θ = true
    · simp [sectionizeStep, hbrk, LayoutItem.page]
    · rw [Bool.not_eq_true] at hbrk
      simp [sectionizeStep, hbrk]
  | heading t l pg =>
    simp [sectionizeStep, isBreak, LayoutItem.page]

/-- Invariant of the scan: when every incoming text item and every
accumulated part is a non-empty string, all flushed sections have non-empty
text and the final accumulation again holds only non-empty parts. -/
theorem sectionizeRun_text_ne_empty (name : String) (θ : ℚ) :
    ∀ (items : List LayoutItem) (prev : Option LayoutItem) (st : ScanState),
      (∀ it ∈ items, ∀ t, it.textOf = some t → t ≠ "") →
      (∀ p ∈ st.parts, p ≠ "") →
      (∀ s ∈ (sectionizeRun name θ prev st items).1, s.section_text ≠ "") ∧
      (∀ p ∈ (sectionizeRun name θ prev st items).2.parts, p ≠ "") := by
  intro items
  induction items with
  | nil =>
    intro prev st hitems hparts
    exact ⟨by simp [sectionizeRun], by simpa [sectionizeRun] using hparts⟩
  | cons it rest ih =>
    intro prev st hitems hparts
    have hit : ∀ t, it.textOf = some t → t ≠ "" :=
      hitems it (List.mem_cons_self it rest)
    have hrest : ∀ x ∈ rest, ∀ t, x.textOf = some t → t ≠ "" :=
      fun x hx => hitems x (List.mem_cons_of_mem it hx)
    have hstep1 : ∀ s ∈ (sectionizeStep name θ prev st it).1, s.section_text ≠ "" := by
      rw [sectionizeStep_fst]
      split
      next h =>
        intro s hs
        rw [List.mem_singleton] at hs
        subst hs
        have hne : st.parts ≠ [] := by
          rcases Bool.and_eq_true_iff.mp h with ⟨-, h2⟩
          intro hnil
          rw [hnil] at h2
          simp at h2
        exact joinSep_nl_ne_empty st.parts hne hparts
      next => simp
    have hstep2 : ∀ p ∈ (sectionizeStep name θ prev st it).2.parts, p ≠ "" := by
      rw [sectionizeStep_snd_parts]
      intro p hp
      rcases List.mem_append.mp hp with h | h
      · split at h
        · simp at h
        · exact hparts p h
      · cases it with
        | text txt pg bb =>
          simp at h
          subst h
          exact hit p rfl
        | heading t l pg => simp at h
    obtain ⟨ih1, ih2⟩ := ih (some it) (sectionizeStep name θ prev st it).2 hrest hstep2
    constructor
    · intro s hs
      simp only [sectionizeRun] at hs
      rcases List.mem_append.mp hs with h | h
      · exact hstep1 s h
      · exact ih1 s h
    · intro p hp
      simp only [sectionizeRun] at hp
      exact ih2 p hp

/-- Every text item of `all_content_items` carries a non-empty (stripped)
text: blocks whose stripped text is empty are dropped. -/
theorem allContentItems_text_ne_empty (doc : PdfDoc) :
    ∀ it ∈ allContentItems doc, ∀ t, it.textOf = some t → t ≠ "" := by
  intro it hit t htext
  unfold allContentItems at hit
  rcases List.mem_append.mp hit with h | h
  · rcases List.mem_flatMap.mp h with ⟨p, hp, hmem⟩
    unfold textItemsOfPage at hmem
    rcases List.mem_filterMap.mp hmem with ⟨b, hb, hbe⟩
    by_cases he : pystrip (blockText b) = ""
    · simp [he] at hbe
    · simp [he] at hbe
      subst hbe
      simp [LayoutItem.textOf] at htext
      subst htext
      exact he
  · rcases List.mem_map.mp h with ⟨o, ho, hoe⟩
    subst hoe
    simp [LayoutItem.textOf] at htext

/-- The sorted item stream keeps that property (sorting permutes). -/
theorem sortedItems_text_ne_empty (doc : PdfDoc) :
    ∀ it ∈ sortedItems doc, ∀ t, it.textOf = some t → t ≠ "" := by
  intro it hit
  exact allContentItems_text_ne_empty doc it
    ((List.perm_insertionSort itemLe (allContentItems doc)).mem_iff.mp hit)

/-- **C2**.  Every Section emitted by the Sectionizer has non-empty raw
text: a flush happens only when the accumulated parts are non-empty, every
accumulated part is a non-empty stripped block text, and the final flush is
likewise guarded, so no Section with empty `section_text` is ever
produced. -/
theorem C2_theorem (name : String) (doc : PdfDoc) :
    ∀ s ∈ extract_document_sections name doc, s.section_text ≠ "" := by
  intro s hs
  unfold extract_document_sections at hs
  obtain ⟨h1, h2⟩ := sectionizeRun_text_ne_empty name (gapThreshold doc)
    (sortedItems doc) none initState (sortedItems_text_ne_empty doc)
    (by simp [initState])
  rcases List.mem_append.mp hs with h | h
  · exact h1 s h
  · split at h
    next => simp at h
    next hne =>
      rw [List.mem_singleton] at h
      subst h
      have hnil : (sectionizeRun name (gapThreshold doc) none initState
          (sortedItems doc)).2.parts ≠ [] := by
        intro hnil
        rw [hnil] at hne
        simp at hne
      exact joinSep_nl_ne_empty _ hnil h2

/-- Witness for `C2_theorem` on a concrete document. -/
theorem C2_witness :
    ({ document := "d", page_number := 1, section_title := "Intro",
       section_text := "Body", level := "H1" } : Section).section_text ≠ "" :=
  C2_theorem "d" headedDoc
    { document := "d", page_number := 1, section_title := "Intro",
      section_text := "Body", level := "H1" }
    (by with_unfolding_all decide)

/-- A gap break needs a preceding text block: with no previous text item,
`is_section_break` is false on a text block. -/
theorem isBreak_text_false_of_prev_not_text (prev : Option LayoutItem)
    (hp : prevIsText prev = false) (txt : String) (pg : Nat) (bb : Rect) (θ : ℚ) :
    isBreak prev (.text txt pg bb) θ = false := by
  cases prev with
  | none => rfl
  | some p =>
    cases p with
    | text t q b => simp [prevIsText, LayoutItem.isText] at hp
    | heading t l q => rfl

/-- The head of a `≤`-chain is below every later element. -/
theorem chain_le_head (a : Nat) (l : List Nat)
    (h : List.Chain' (· ≤ ·) (a :: l)) : ∀ b ∈ l, a ≤ b := by
  have hp : List.Pairwise (· ≤ ·) (a :: l) := List.chain'_iff_pairwise.mp h
  exact fun b hb => (List.pairwise_cons.mp hp).1 b hb

/-- Prepending a lower bound to a non-decreasing chain. -/
theorem chain'_cons_of_all (a : Nat) (l : List Nat)
    (hc : List.Chain' (· ≤ ·) l) (hall : ∀ q ∈ l, a ≤ q) :
    List.Chain' (· ≤ ·) (a :: l) := by
  rw [List.chain'_cons']
  refine ⟨?_, hc⟩
  intro b hb
  cases l with
  | nil => simp at hb
  | cons x xs =>
    simp at hb
    subst hb
    exact hall x (List.mem_cons_self x xs)

/-- Start-page monotonicity of the scan.  Under the invariants that the
remaining item pages form a non-decreasing chain, that an empty
accumulation implies no preceding text item and a start page at or below
every remaining text item's page, and that a non-empty accumulation
implies a start page at or below every remaining item's page: the emitted
start pages (including the final flush) form a non-decreasing chain, they
begin with the current start page when the accumulation is non-empty, and
each of them is either the current start page or the page of some
remaining item. -/
theorem runPages_mono (name : String) (θ : ℚ) :
    ∀ (items : List LayoutItem) (prev : Option LayoutItem) (st : ScanState),
      List.Chain' (· ≤ ·) (items.map LayoutItem.page) →
      (st.parts = [] → prevIsText prev = false ∧
        ∀ it ∈ items, it.isText = true → st.startPage ≤ it.page) →
      (st.parts ≠ [] → ∀ it ∈ items, st.startPage ≤ it.page) →
      List.Chain' (· ≤ ·) (runPages name θ prev st items) ∧
      (st.parts ≠ [] →
        ∃ restPs, runPages name θ prev st items = st.startPage :: restPs) ∧
      (∀ q ∈ runPages name θ prev st items,
        q = st.startPage ∨ ∃ it ∈ items, q = it.page) := by
  intro items
  induction items with
  | nil =>
    intro prev st hchain hweak hstrong
    by_cases hp : st.parts.isEmpty = true
    · refine ⟨by simp [runPages, sectionizeRun, hp], ?_, ?_⟩
      · intro hne
        rw [List.isEmpty_iff] at hp
        exact absurd hp hne
      · intro q hq
        simp [runPages, sectionizeRun, hp] at hq
    · rw [Bool.not_eq_true] at hp
      refine ⟨by simp [runPages, sectionizeRun, hp], ?_, ?_⟩
      · intro _
        exact ⟨[], by simp [runPages, sectionizeRun, hp]⟩
      · intro q hq
        simp [runPages, sectionizeRun, hp] at hq
        exact Or.inl hq
  | cons it rest ih =>
    intro prev st hchain hweak hstrong
    rw [show (it :: rest).map LayoutItem.page =
        it.page :: rest.map LayoutItem.page from by simp] at hchain
    have hch1 : ∀ x ∈ rest, it.page ≤ x.page := fun x hx =>
      chain_le_head it.page (rest.map LayoutItem.page) hchain x.page
        (List.mem_map.mpr ⟨x, hx, rfl⟩)
    have hch2 : List.Chain' (· ≤ ·) (rest.map LayoutItem.page) := hchain.tail
    have hrp : runPages name θ prev st (it :: rest) =
        ((sectionizeStep name θ prev st it).1.map (fun s => s.page_number)) ++
          runPages name θ (some it) (sectionizeStep name θ prev st it).2 rest := by
      simp [runPages, sectionizeRun, List.map_append, List.append_assoc]
    by_cases hbrk : isBreak prev it θ = true
    · have hsp : (sectionizeStep name θ prev st it).2.startPage = it.page := by
        rw [sectionizeStep_snd_startPage, if_pos hbrk]
      by_cases hp : st.parts.isEmpty = true
      · -- boundary with empty accumulation: no flush, `it` is a heading
        rw [List.isEmpty_iff] at hp
        obtain ⟨hpt, hpageW⟩ := hweak hp
        have hhead : it.isText = false := by
          cases it with
          | text txt pg bb =>
            rw [isBreak_text_false_of_prev_not_text prev hpt txt pg bb θ] at hbrk
            simp at hbrk
          | heading t l pg => rfl
        have hstep1 : (sectionizeStep name θ prev st it).1 = [] := by
          rw [sectionizeStep_fst, hp]
          simp
        have hstep2 : (sectionizeStep name θ prev st it).2.parts = [] := by
          rw [sectionizeStep_snd_parts, hp]
          cases it with
          | text txt pg bb => simp [LayoutItem.isText] at hhead
          | heading t l pg => simp
        have hptF : prevIsText (some it) = false := by
          simp [prevIsText, hhead]
        obtain ⟨c1, c2, c3⟩ := ih (some it) (sectionizeStep name θ prev st it).2
          hch2
          (fun _ => ⟨hptF, fun x hx _ => hsp ▸ hch1 x hx⟩)
          (fun hne => absurd hstep2 hne)
        refine ⟨?_, ?_, ?_⟩
        · rw [hrp, hstep1]
          simpa using c1
        · intro hne
          exact absurd hp hne
        · intro q hq
          rw [hrp, hstep1] at hq
          simp only [List.map_nil, List.nil_append] at hq
          rcases c3 q hq with h | ⟨x, hx, hqe⟩
          · exact Or.inr ⟨it, List.mem_cons_self it rest, by rw [h, hsp]⟩
          · exact Or.inr ⟨x, List.mem_cons_of_mem it hx, hqe⟩
      · -- boundary with non-empty accumulation: flush at `it`
        rw [Bool.not_eq_true] at hp
        have hpne : st.parts ≠ [] := by
          intro hnil
          rw [hnil] at hp
          simp at hp
        have hstep1 : (sectionizeStep name θ prev st it).1 = [mkSection name st] := by
          rw [sectionizeStep_fst, hbrk, hp]
          simp
        have hle_it : st.startPage ≤ it.page :=
          hstrong hpne it (List.mem_cons_self it rest)
        obtain ⟨c1, c2, c3⟩ := ih (some it) (sectionizeStep name θ prev st it).2
          hch2
          (fun hz => ⟨by
              cases it with
              | text txt pg bb =>
                rw [sectionizeStep_snd_parts] at hz
                simp at hz
              | heading t l pg => rfl,
            fun x hx _ => hsp ▸ hch1 x hx⟩)
          (fun _ x hx => hsp ▸ hch1 x hx)
        have hall : ∀ q ∈ runPages name θ (some it)
            (sectionizeStep name θ prev st it).2 rest, st.startPage ≤ q := by
          intro q hq
          rcases c3 q hq with h | ⟨x, hx, hqe⟩
          · rw [h, hsp]
            exact hle_it
          · rw [hqe]
            exact hle_it.trans (hch1 x hx)
        refine ⟨?_, ?_, ?_⟩
        · rw [hrp, hstep1]
          simp only [List.map_cons, List.map_nil, List.singleton_append, mkSection]
          exact chain'_cons_of_all st.startPage _ c1 hall
        · intro _
          refine ⟨runPages name θ (some it) (sectionizeStep name θ prev st it).2 rest, ?_⟩
          rw [hrp, hstep1]
          simp [mkSection]
        · intro q hq
          rw [hrp, hstep1] at hq
          simp only [List.map_cons, List.map_nil, List.singleton_append, mkSection,
            List.mem_cons] at hq
          rcases hq with h | hq
          · exact Or.inl h
          · rcases c3 q hq with h | ⟨x, hx, hqe⟩
            · exact Or.inr ⟨it, List.mem_cons_self it rest, by rw [h, hsp]⟩
            · exact Or.inr ⟨x, List.mem_cons_of_mem it hx, hqe⟩
    · -- no boundary: `it` is a text block that only accumulates
      rw [Bool.not_eq_true] at hbrk
      have hsp : (sectionizeStep name θ prev st it).2.startPage = st.startPage := by
        rw [sectionizeStep_snd_startPage, hbrk]
        simp
      have htext : it.isText = true := by
        cases it with
        | text _ _ _ => rfl
        | heading t l pg =>
          rw [show isBreak prev (.heading t l pg) θ = true from rfl] at hbrk
          simp at hbrk
      have hstep1 : (sectionizeStep name θ prev st it).1 = [] := by
        rw [sectionizeStep_fst, hbrk]
        simp
      have hstep2ne : (sectionizeStep name θ prev st it).2.parts ≠ [] := by
        rw [sectionizeStep_snd_parts]
        cases it with
        | text txt pg bb => simp
        | heading t l pg => simp [LayoutItem.isText] at htext
      have hbound : ∀ x ∈ rest, st.startPage ≤ x.page := by
        by_cases hz : st.parts = []
        · obtain ⟨-, hw⟩ := hweak hz
          intro x hx
          exact (hw it (List.mem_cons_self it rest) htext).trans (hch1 x hx)
        · intro x hx
          exact hstrong hz x (List.mem_cons_of_mem it hx)
      obtain ⟨c1, c2, c3⟩ := ih (some it) (sectionizeStep name θ prev st it).2
        hch2
        (fun hz => absurd hz hstep2ne)
        (fun _ x hx => hsp ▸ hbound x hx)
      refine ⟨?_, ?_, ?_⟩
      · rw [hrp, hstep1]
        simpa using c1
      · intro hne
        obtain ⟨restPs, hre⟩ := c2 hstep2ne
        refine ⟨restPs, ?_⟩
        rw [hrp, hstep1]
        rw [hsp] at hre
        simpa using hre
      · intro q hq
        rw [hrp, hstep1] at hq
        simp only [List.map_nil, List.nil_append] at hq
        rcases c3 q hq with h | ⟨x, hx, hqe⟩
        · exact Or.inl (by rw [h, hsp])
        · exact Or.inr ⟨x, List.mem_cons_of_mem it hx, hqe⟩

/-- Text-block items always carry a positive (1-based) page number. -/
theorem allContentItems_text_page_pos (doc : PdfDoc) :
    ∀ it ∈ allContentItems doc, it.isText = true → 1 ≤ it.page := by
  intro it hit htext
  unfold allContentItems at hit
  rcases List.mem_append.mp hit with h | h
  · rcases List.mem_flatMap.mp h with ⟨p, hp, hmem⟩
    unfold textItemsOfPage at hmem
    rcases List.mem_filterMap.mp hmem with ⟨b, hb, hbe⟩
    by_cases he : pystrip (blockText b) = ""
    · simp [he] at hbe
    · simp [he] at hbe
      subst hbe
      simp [LayoutItem.page]
  · rcases List.mem_map.mp h with ⟨o, ho, hoe⟩
    subst hoe
    simp [LayoutItem.isText] at htext

/-- The pages of the sorted item stream are non-decreasing. -/
theorem sortedItems_pages_chain (doc : PdfDoc) :
    List.Chain' (· ≤ ·) ((sortedItems doc).map LayoutItem.page) := by
  have hs : List.Sorted itemLe (sortedItems doc) :=
    List.sorted_insertionSort itemLe (allContentItems doc)
  have hp : List.Pairwise (fun a b : LayoutItem => a.page ≤ b.page)
      (sortedItems doc) := by
    refine hs.imp ?_
    intro a b hab
    rcases hab with h | ⟨h, -⟩
    · exact Nat.le_of_lt h
    · exact le_of_eq h
  rw [List.chain'_iff_pairwise]
  exact (List.pairwise_map).mpr hp

/-- **C4**.  Within one document, the start pages of the Sections, in the
order the Sectionizer emits them, are monotonically non-decreasing. -/
theorem C4_theorem (name : String) (doc : PdfDoc) :
    List.Chain' (· ≤ ·)
      ((extract_document_sections name doc).map (fun s => s.page_number)) := by
  have heq : (extract_document_sections name doc).map (fun s => s.page_number) =
      runPages name (gapThreshold doc) none initState (sortedItems doc) := by
    by_cases hc : (sectionizeRun name (gapThreshold doc) none initState
        (sortedItems doc)).2.parts.isEmpty = true
    · simp [extract_document_sections, runPages, hc]
    · rw [Bool.not_eq_true] at hc
      simp [extract_document_sections, runPages, hc, mkSection]
  rw [heq]
  exact (runPages_mono name (gapThreshold doc) (sortedItems doc) none initState
    (sortedItems_pages_chain doc)
    (fun _ => ⟨rfl, fun it hit htext => by
      have h1 := allContentItems_text_page_pos doc it
        ((List.perm_insertionSort itemLe (allContentItems doc)).mem_iff.mp hit) htext
      simpa [initState] using h1⟩)
    (fun hne => absurd rfl hne)).1

/-- Instrumented analogue of `sectionizeStep_fst`. -/
theorem isectionizeStep_fst (name : String) (θ : ℚ) (prev : Option LayoutItem)
    (st : IScanState) (it : LayoutItem) :
    (isectionizeStep name θ prev st it).1 =
      if isBreak prev it θ && !st.parts.isEmpty then [mkISection name st] else [] := by
  cases it with
  | text txt pg bb =>
    by_cases hbrk : isBreak prev (.text txt pg bb) θ = true
    · simp [isectionizeStep, hbrk]
      split <;> rfl
    · rw [Bool.not_eq_true] at hbrk
      simp [isectionizeStep, hbrk]
  | heading t l pg =>
    simp [isectionizeStep, isBreak]
    split <;> rfl

/-- Instrumented analogue of `sectionizeStep_snd_parts`. -/
theorem isectionizeStep_snd_parts (name : String) (θ : ℚ)
    (prev : Option LayoutItem) (st : IScanState) (it : LayoutItem) :
    (isectionizeStep name θ prev st it).2.parts =
      (if isBreak prev it θ && !st.parts.isEmpty then [] else st.parts) ++
        (match it with
          | .text txt _ _ => [txt]
          | .heading _ _ _ => []) := by
  cases it with
  | text txt pg bb =>
    by_cases hbrk : isBreak prev (.text txt pg bb) θ = true
    · by_cases hp : st.parts.isEmpty = true
      · simp [isectionizeStep, hbrk, hp]
      · rw [Bool.not_eq_true] at hp
        simp [isectionizeStep, hbrk, hp]
    · rw [Bool.not_eq_true] at hbrk
      simp [isectionizeStep, hbrk]
  | heading t l pg =>
    by_cases hp : st.parts.isEmpty = true
    · simp [isectionizeStep, isBreak, hp]
    · rw [Bool.not_eq_true] at hp
      simp [isectionizeStep, isBreak, hp]

/-- One instrumented step projects onto one plain step. -/
theorem isectionizeStep_agree (name : String) (θ : ℚ) (prev : Option LayoutItem)
    (st : IScanState) (it : LayoutItem) :
    sectionizeStep name θ prev (projState st) it =
      ((isectionizeStep name θ prev st it).1.map ISection.toSection,
        projState (isectionizeStep name θ prev st it).2) := by
  cases it with
  | text txt pg bb =>
    by_cases hbrk : isBreak prev (.text txt pg bb) θ = true
    · by_cases hp : st.parts.isEmpty = true
      · simp [sectionizeStep, isectionizeStep, projState, mkSection, mkISection,
          ISection.toSection, hbrk, hp]
      · rw [Bool.not_eq_true] at hp
        simp [sectionizeStep, isectionizeStep, projState, mkSection, mkISection,
          ISection.toSection, hbrk, hp]
    · rw [Bool.not_eq_true] at hbrk
      simp [sectionizeStep, isectionizeStep, projState, mkSection, mkISection,
        ISection.toSection, hbrk]
  | heading t l pg =>
    by_cases hp : st.parts.isEmpty = true
    · simp [sectionizeStep, isectionizeStep, projState, mkSection, mkISection,
        ISection.toSection, isBreak, hp]
    · rw [Bool.not_eq_true] at hp
      simp [sectionizeStep, isectionizeStep, projState, mkSection, mkISection,
        ISection.toSection, isBreak, hp]

/-- The instrumented scan projects onto the plain scan. -/
theorem isectionizeRun_agree (name : String) (θ : ℚ) :
    ∀ (items : List LayoutItem) (prev : Option LayoutItem) (st : IScanState),
      sectionizeRun name θ prev (projState st) items =
        ((isectionizeRun name θ prev st items).1.map ISection.toSection,
          projState (isectionizeRun name θ prev st items).2) := by
  intro items
  induction items with
  | nil =>
    intro prev st
    simp [sectionizeRun, isectionizeRun]
  | cons it rest ih =>
    intro prev st
    simp only [sectionizeRun, isectionizeRun, isectionizeStep_agree, ih,
      List.map_append]

/-- `extract_document_sections` is the projection of the instrumented
extraction. -/
theorem extractISections_agree (name : String) (doc : PdfDoc) :
    extract_document_sections name doc =
      (extractISections name doc).map ISection.toSection := by
  simp only [extract_document_sections, extractISections]
  rw [show initState = projState initIState from rfl, isectionizeRun_agree]
  by_cases hc : (isectionizeRun name (gapThreshold doc) none initIState
      (sortedItems doc)).2.parts.isEmpty = true
  · simp [projState, hc]
  · rw [Bool.not_eq_true] at hc
    simp [projState, hc, mkSection, mkISection, ISection.toSection]

/-- One step preserves the boundary/title invariant.  A heading boundary
installs the heading's text and level together with itself as last
boundary; a gap boundary installs the generic title together with the text
item; a non-boundary text item changes neither. -/
theorem isectionizeStep_invB (name : String) (θ : ℚ) (prev : Option LayoutItem)
    (st : IScanState) (it : LayoutItem) (hinv : InvB st) :
    InvB (isectionizeStep name θ prev st it).2 := by
  cases it with
  | heading t l pg =>
    by_cases hp : st.parts.isEmpty = true
    · simp [isectionizeStep, isBreak, hp, InvB]
    · rw [Bool.not_eq_true] at hp
      simp [isectionizeStep, isBreak, hp, InvB]
  | text txt pg bb =>
    by_cases hbrk : isBreak prev (.text txt pg bb) θ = true
    · by_cases hp : st.parts.isEmpty = true
      · simp [isectionizeStep, hbrk, hp, InvB]
      · rw [Bool.not_eq_true] at hp
        simp [isectionizeStep, hbrk, hp, InvB]
    · rw [Bool.not_eq_true] at hbrk
      simp only [isectionizeStep, hbrk, Bool.false_and, Bool.false_eq_true, if_false]
      exact hinv

/-- The scan flushes only `GovOk` sections and preserves the invariant. -/
theorem isectionizeRun_govOk (name : String) (θ : ℚ) :
    ∀ (items : List LayoutItem) (prev : Option LayoutItem) (st : IScanState),
      InvB st →
      (∀ s ∈ (isectionizeRun name θ prev st items).1, GovOk s) ∧
      InvB (isectionizeRun name θ prev st items).2 := by
  intro items
  induction items with
  | nil =>
    intro prev st hinv
    exact ⟨by simp [isectionizeRun], by simpa [isectionizeRun] using hinv⟩
  | cons it rest ih =>
    intro prev st hinv
    have hstep1 : ∀ s ∈ (isectionizeStep name θ prev st it).1, GovOk s := by
      rw [isectionizeStep_fst]
      split
      · intro s hs
        rw [List.mem_singleton] at hs
        subst hs
        exact hinv
      · simp
    obtain ⟨ih1, ih2⟩ := ih (some it) (isectionizeStep name θ prev st it).2
      (isectionizeStep_invB name θ prev st it hinv)
    refine ⟨?_, ?_⟩
    · intro s hs
      simp only [isectionizeRun] at hs
      rcases List.mem_append.mp hs with h | h
      · exact hstep1 s h
      · exact ih1 s h
    · simpa [isectionizeRun] using ih2

/-- **C5** (amended).  Through the instrumented scan (whose projection is
exactly `extract_document_sections`, first conjunct): every Section whose
governing boundary is a HeadingMarker is emitted with that heading's text
as title and that heading's level; Sections emitted before *any* boundary
keep the initial title `"Document Start"` and the sentinel level `"H0"`;
and — contrary to the original claim's second half — a Section whose
governing boundary is a gap-triggered text block carries the generic title
`"Content"`, even before any heading has been seen. -/
theorem C5_theorem (name : String) (doc : PdfDoc) :
    extract_document_sections name doc =
      (extractISections name doc).map ISection.toSection ∧
    ∀ s ∈ extractISections name doc,
      (∀ t l p, s.gov = some (.heading t l p) →
        s.section_title = t ∧ s.level = l) ∧
      (s.gov = none →
        s.section_title = "Document Start" ∧ s.level = "H0") ∧
      (∀ txt pg bb, s.gov = some (.text txt pg bb) →
        s.section_title = "Content") := by
  refine ⟨extractISections_agree name doc, ?_⟩
  have hrun := isectionizeRun_govOk name (gapThreshold doc) (sortedItems doc)
    none initIState (by simp [InvB, initIState])
  have hgov : ∀ s ∈ extractISections name doc, GovOk s := by
    intro s hs
    unfold extractISections at hs
    rcases List.mem_append.mp hs with h | h
    · exact hrun.1 s h
    · split at h
      · simp at h
      · rw [List.mem_singleton] at h
        subst h
        exact hrun.2
  intro s hs
  have hg := hgov s hs
  refine ⟨?_, ?_, ?_⟩
  · intro t l p hge
    unfold GovOk at hg
    rw [hge] at hg
    exact hg
  · intro hge
    unfold GovOk at hg
    rw [hge] at hg
    exact hg
  · intro txt pg bb hge
    unfold GovOk at hg
    rw [hge] at hg
    exact hg

/-- Witness for `C5_theorem`: in `headedDoc` the single section is governed
by the heading `Intro`/`H1` and carries its text and level. -/
theorem C5_witness :
    ({ document := "d", page_number := 1, section_title := "Intro",
       parts := ["Body"], level := "H1",
       gov := some (.heading "Intro" "H1" 1) } : ISection).section_title = "Intro" ∧
    ({ document := "d", page_number := 1, section_title := "Intro",
       parts := ["Body"], level := "H1",
       gov := some (.heading "Intro" "H1" 1) } : ISection).level = "H1" := by
  have h := C5_theorem "d" headedDoc
  exact (h.2
    { document := "d", page_number := 1, section_title := "Intro",
      parts := ["Body"], level := "H1",
      gov := some (.heading "Intro" "H1" 1) }
    (by with_unfolding_all decide)).1 "Intro" "H1" 1 rfl

/-- **C5** counterexample.  `contentDoc` contains no heading at all, yet
its second emitted Section (created by a gap boundary) has title
`"Content"`, not the initial `"Document Start"` the claim's second half
requires for sections emitted before any heading has been seen.  (Both
sections do keep the sentinel level `"H0"`.) -/
theorem C5_counterexample :
    (allContentItems contentDoc).all (fun it => it.isText) = true ∧
    (extract_document_sections "d" contentDoc).map
        (fun s => (s.section_title, s.level)) =
      [("Document Start", "H0"), ("Content", "H0")] := by
  constructor <;> with_unfolding_all decide

/-- One step conserves text: the parts it flushes plus the parts it keeps
are the old accumulation plus the item's text (when it is a text block). -/
theorem isectionizeStep_parts_balance (name : String) (θ : ℚ)
    (prev : Option LayoutItem) (st : IScanState) (it : LayoutItem) :
    ((isectionizeStep name θ prev st it).1.map (fun s => s.parts)).join ++
        (isectionizeStep name θ prev st it).2.parts =
      st.parts ++ (match it with
        | .text txt _ _ => [txt]
        | .heading _ _ _ => []) := by
  rw [isectionizeStep_fst, isectionizeStep_snd_parts]
  by_cases hb : (isBreak prev it θ && !st.parts.isEmpty) = true
  · rw [if_pos hb, if_pos hb]
    simp [mkISection]
  · rw [Bool.not_eq_true] at hb
    rw [if_neg (by simp [hb]), if_neg (by simp [hb])]
    simp

/-- The scan conserves text: the concatenation of all flushed parts plus
the final accumulation equals the initial accumulation plus the text-block
texts of the consumed items, in order. -/
theorem isectionizeRun_parts_balance (name : String) (θ : ℚ) :
    ∀ (items : List LayoutItem) (prev : Option LayoutItem) (st : IScanState),
      ((isectionizeRun name θ prev st items).1.map (fun s => s.parts)).join ++
          (isectionizeRun name θ prev st items).2.parts =
        st.parts ++ items.filterMap LayoutItem.textOf := by
  intro items
  induction items with
  | nil =>
    intro prev st
    simp [isectionizeRun]
  | cons it rest ih =>
    intro prev st
    have hstep := isectionizeStep_parts_balance name θ prev st it
    simp only [isectionizeRun, List.map_append, List.join_append]
    rw [List.append_assoc, ih, ← List.append_assoc, hstep]
    cases it with
    | text txt pg bb => simp [LayoutItem.textOf, List.filterMap_cons]
    | heading t l pg => simp [LayoutItem.textOf, List.filterMap_cons]

/-- Every flushed section has a non-empty parts list (the flush guard). -/
theorem isectionizeRun_parts_ne (name : String) (θ : ℚ) :
    ∀ (items : List LayoutItem) (prev : Option LayoutItem) (st : IScanState),
      ∀ s ∈ (isectionizeRun name θ prev st items).1, s.parts ≠ [] := by
  intro items
  induction items with
  | nil =>
    intro prev st s hs
    simp [isectionizeRun] at hs
  | cons it rest ih =>
    intro prev st s hs
    simp only [isectionizeRun] at hs
    rcases List.mem_append.mp hs with h | h
    · rw [isectionizeStep_fst] at h
      split at h
      next hb =>
        rw [List.mem_singleton] at h
        subst h
        rcases Bool.and_eq_true_iff.mp hb with ⟨-, h2⟩
        simp only [mkISection]
        intro hnil
        rw [hnil] at h2
        simp at h2
      next => simp at h
    · exact ih (some it) (isectionizeStep name θ prev st it).2 s h

/-- **C10**.  The Sectionizer only partitions the text stream: the emitted
section texts arise as the newline-joins of a partition of the sequence of
(non-empty, trimmed) text-block texts of the sorted item stream, with no
text dropped or duplicated, and no block of the partition empty. -/
theorem C10_theorem (name : String) (doc : PdfDoc) :
    ∃ pss : List (List String),
      (extract_document_sections name doc).map (fun s => s.section_text) =
        pss.map (joinSep "\n") ∧
      pss.join = (sortedItems doc).filterMap LayoutItem.textOf ∧
      ∀ ps ∈ pss, ps ≠ [] := by
  refine ⟨(extractISections name doc).map (fun s => s.parts), ?_, ?_, ?_⟩
  · rw [extractISections_agree name doc]
    simp [ISection.toSection, Function.comp]
  · have hbal := isectionizeRun_parts_balance name (gapThreshold doc)
      (sortedItems doc) none initIState
    rw [show initIState.parts = ([] : List String) from rfl, List.nil_append] at hbal
    simp only [extractISections]
    by_cases hc : (isectionizeRun name (gapThreshold doc) none initIState
        (sortedItems doc)).2.parts.isEmpty = true
    · rw [List.isEmpty_iff] at hc
      rw [hc] at hbal ⊢
      simp only [List.isEmpty_nil, if_true, List.append_nil] at hbal ⊢
      exact hbal
    · rw [Bool.not_eq_true] at hc
      simp only [hc, Bool.false_eq_true, if_false]
      have hj : ∀ (A B : List (List String)), (A ++ B).join = A.join ++ B.join := by
        intro A B
        simp
      rw [List.map_append, hj]
      simpa [mkISection] using hbal
  · intro ps hps
    rcases List.mem_map.mp hps with ⟨s, hs, hse⟩
    subst hse
    unfold extractISections at hs
    rcases List.mem_append.mp hs with h | h
    · exact isectionizeRun_parts_ne name (gapThreshold doc) (sortedItems doc)
        none initIState s h
    · split at h
      · simp at h
      next hne =>
        rw [List.mem_singleton] at h
        subst h
        simp only [mkISection]
        intro hnil
        rw [hnil] at hne
        simp at hne

/-- Stability of `orderedInsert` for a key-descending total preorder:
filtering on any key value commutes with inserting, because the insertion
point lies after exactly the entries with strictly larger key. -/
theorem orderedInsert_filter_key {α β : Type} [LinearOrder β]
    (r : α → α → Prop) [DecidableRel r] (key : α → β)
    (hr : ∀ a b, r a b ↔ key b ≤ key a) (v : β) (x : α) :
    ∀ l : List α,
      (List.orderedInsert r x l).filter (fun a => decide (key a = v)) =
        if key x = v then x :: l.filter (fun a => decide (key a = v))
        else l.filter (fun a => decide (key a = v)) := by
  intro l
  induction l with
  | nil =>
    by_cases hx : key x = v
    · simp [List.orderedInsert, List.filter, hx]
    · simp [List.orderedInsert, List.filter, hx]
  | cons y l ih =>
    by_cases hxy : r x y
    · rw [List.orderedInsert_of_le r l hxy]
      by_cases hx : key x = v
      · simp [List.filter_cons, hx]
      · simp [List.filter_cons, hx]
    · have hlt : key x < key y := by
        rcases lt_or_ge (key x) (key y) with h | h
        · exact h
        · exact absurd ((hr x y).mpr h) hxy
      have hred : List.orderedInsert r x (y :: l) = y :: List.orderedInsert r x l := by
        simp [List.orderedInsert, hxy]
      rw [hred]
      by_cases hx : key x = v
      · have hyv : ¬(key y = v) := by
          intro hyv
          rw [← hx] at hyv
          exact absurd hyv (ne_of_gt hlt)
        rw [List.filter_cons, List.filter_cons, ih]
        simp [hx, hyv]
      · rw [List.filter_cons, List.filter_cons, ih]
        by_cases hyv : key y = v
        · simp [hx, hyv]
        · simp [hx, hyv]

/-- Stability of the insertion sort for a key-descending total preorder:
the entries carrying any fixed key value keep their original order. -/
theorem insertionSort_filter_key {α β : Type} [LinearOrder β]
    (r : α → α → Prop) [DecidableRel r] (key : α → β)
    (hr : ∀ a b, r a b ↔ key b ≤ key a) (v : β) :
    ∀ l : List α,
      (List.insertionSort r l).filter (fun a => decide (key a = v)) =
        l.filter (fun a => decide (key a = v)) := by
  intro l
  induction l with
  | nil => rfl
  | cons x l ih =>
    simp only [List.insertionSort]
    rw [orderedInsert_filter_key r key hr v, ih]
    by_cases hx : key x = v
    · simp [List.filter_cons, hx]
    · simp [List.filter_cons, hx]

/-- `(enumFrom n l).map (fun p => p.1 + 1)` is the contiguous range
starting at `n + 1`. -/
theorem enumFrom_map_fst_succ {α : Type} :
    ∀ (l : List α) (n : Nat),
      (List.enumFrom n l).map (fun p => p.1 + 1) = List.range' (n + 1) l.length := by
  intro l
  induction l with
  | nil => intro n; rfl
  | cons x l ih =>
    intro n
    simp only [List.enumFrom, List.map_cons, List.length_cons, List.range'_succ]
    rw [ih]

/-- **C3**.  The final `extracted_sections` list is the stable descending
sort of the scored sections (scores non-increasing, ties kept in original
cross-document order), and the re-assigned `importance_rank`s are exactly
the contiguous sequence `1..K`. -/
theorem C3_theorem (l : List RankedSection) :
    List.Sorted (· ≥ ·)
      ((rankSectionsSorted l).map (fun s => s.importance_rank)) ∧
    (∀ v : ℚ, (rankSectionsSorted l).filter
        (fun s => decide (s.importance_rank = v)) =
      l.filter (fun s => decide (s.importance_rank = v))) ∧
    (finalizeSections l).map (fun s => s.importance_rank) =
      List.range' 1 l.length := by
  refine ⟨?_, ?_, ?_⟩
  · have hs : List.Sorted scoreGe (rankSectionsSorted l) :=
      List.sorted_insertionSort scoreGe l
    have hp : List.Pairwise
        (fun a b : RankedSection => a.importance_rank ≥ b.importance_rank)
        (rankSectionsSorted l) := hs.imp (fun h => h)
    exact (List.pairwise_map).mpr hp
  · intro v
    exact insertionSort_filter_key scoreGe (fun s => s.importance_rank)
      (fun a b => Iff.rfl) v l
  · unfold finalizeSections
    rw [List.map_map]
    have : ((fun s : FinalSection => s.importance_rank) ∘
        (fun p : Nat × RankedSection =>
          ({ document := p.2.document, page_number := p.2.page_number,
             section_title := p.2.section_title, importance_rank := p.1 + 1,
             section_text_raw := p.2.section_text_raw,
             refined_text := refineText p.2.section_text_raw,
             keywords := p.2.keywords } : FinalSection))) =
        fun p : Nat × RankedSection => p.1 + 1 := rfl
    rw [this]
    have hlen : (rankSectionsSorted l).length = l.length :=
      (List.perm_insertionSort scoreGe l).length_eq
    rw [show (rankSectionsSorted l).enum = List.enumFrom 0 (rankSectionsSorted l) from rfl]
    rw [enumFrom_map_fst_succ (rankSectionsSorted l) 0, hlen]

/-- String concatenation concatenates the underlying character lists. -/
theorem string_data_append (a b : String) : (a ++ b).data = a.data ++ b.data :=
  rfl

/-- Whitespace is never sentence-terminal punctuation. -/
theorem isTermCh_false_of_isWS (c : Char) (h : isWS c = true) :
    isTermCh c = false := by
  unfold isWS at h
  simp only [Bool.or_eq_true, beq_iff_eq] at h
  rcases h with ((((h | h) | h) | h) | h) | h <;> subst h <;> rfl

/-- `countTB` of a concatenation: the two parts plus the junction. -/
theorem countTB_append :
    ∀ (xs ys : List Char),
      countTB (xs ++ ys) = countTB xs + countTB ys + tbJunction xs ys
  | [], ys => by simp [countTB, tbJunction]
  | [a], ys => by
    cases ys with
    | nil => simp [countTB, tbJunction]
    | cons b ys2 =>
      simp only [List.singleton_append, countTB, tbJunction, List.getLast?_singleton,
        List.head?_cons]
      omega
  | a :: b :: xs2, ys => by
    have ih := countTB_append (b :: xs2) ys
    have hj : tbJunction (a :: b :: xs2) ys = tbJunction (b :: xs2) ys := by
      simp [tbJunction, List.getLast?_cons_cons]
    rw [show (a :: b :: xs2) ++ ys = a :: ((b :: xs2) ++ ys) from rfl]
    rw [show countTB (a :: ((b :: xs2) ++ ys)) =
        tbPair a b + countTB ((b :: xs2) ++ ys) from rfl]
    rw [show countTB (a :: b :: xs2) = tbPair a b + countTB (b :: xs2) from rfl]
    rw [hj, ih]
    omega

/-- A character that is not terminal punctuation contributes no boundary
at the head. -/
theorem countTB_cons_noterm (c : Char) (h : isTermCh c = false) :
    ∀ z : List Char, countTB (c :: z) = countTB z := by
  intro z
  cases z with
  | nil => rfl
  | cons d z2 =>
    simp [countTB, tbPair, h]

/-- The number of pieces the sentence scan produces is one more than the
number of (terminal punctuation, whitespace) adjacencies, in any mode. -/
theorem ssGo_length :
    ∀ (cs : List Char) (b : Bool) (cur : List Char),
      (ssGo b cur cs).length = countTB cs + 1 := by
  intro cs
  induction cs with
  | nil => intro b cur; rfl
  | cons c rest ih =>
    intro b cur
    by_cases hskip : (b && isWS c) = true
    · have hws : isWS c = true := (Bool.and_eq_true_iff.mp hskip).2
      have hterm : isTermCh c = false := isTermCh_false_of_isWS c hws
      have hred : ssGo b cur (c :: rest) = ssGo true cur rest := by
        simp [ssGo, hskip]
      rw [hred, ih, countTB_cons_noterm c hterm]
    · by_cases hbk : (isTermCh c && headIsWS rest) = true
      · have hred : ssGo b cur (c :: rest) =
            (c :: cur).reverse :: ssGo true [] rest := by
          simp only [ssGo, hskip, Bool.false_eq_true, if_false, hbk, if_true]
        rw [hred]
        simp only [List.length_cons, ih]
        obtain ⟨h1, h2⟩ := Bool.and_eq_true_iff.mp hbk
        cases rest with
        | nil => simp [headIsWS] at h2
        | cons d rest2 =>
          have hd : isWS d = true := by simpa [headIsWS] using h2
          simp [countTB, tbPair, h1, hd]
          omega
      · have hred : ssGo b cur (c :: rest) = ssGo false (c :: cur) rest := by
          simp only [ssGo, hskip, Bool.false_eq_true, if_false, hbk]
        rw [hred, ih]
        cases rest with
        | nil => rfl
        | cons d rest2 =>
          have hp : tbPair c d = 0 := by
            unfold tbPair
            rw [if_neg]
            intro hcd
            rw [show (isTermCh c && headIsWS (d :: rest2)) =
                (isTermCh c && isWS d) from by simp [headIsWS]] at hbk
            exact hbk hcd
          simp [countTB, hp]

/-- Every piece the sentence scan produces contains no internal
(terminal punctuation, whitespace) adjacency, provided the current reversed
accumulator glues to the remaining input without one. -/
theorem ssGo_pieces_countTB :
    ∀ (cs : List Char) (b : Bool) (cur : List Char),
      countTB (cur.reverse ++ cs) = countTB cs →
      ∀ p ∈ ssGo b cur cs, countTB p = 0 := by
  intro cs
  induction cs with
  | nil =>
    intro b cur h p hp
    simp only [ssGo, List.mem_singleton] at hp
    subst hp
    rw [List.append_nil] at h
    simpa [countTB] using h
  | cons c rest ih =>
    intro b cur h p hp
    have hdec := countTB_append cur.reverse (c :: rest)
    rw [h] at hdec
    have hcur0 : countTB cur.reverse = 0 := by omega
    have hj0 : tbJunction cur.reverse (c :: rest) = 0 := by omega
    by_cases hskip : (b && isWS c) = true
    · have hws : isWS c = true := (Bool.and_eq_true_iff.mp hskip).2
      rw [show ssGo b cur (c :: rest) = ssGo true cur rest from by
        simp [ssGo, hskip]] at hp
      refine ih true cur ?_ p hp
      rw [countTB_append, hcur0]
      have hjr : tbJunction cur.reverse rest = 0 := by
        unfold tbJunction at hj0 ⊢
        cases hl : cur.reverse.getLast? with
        | none => simp
        | some a =>
          rw [hl] at hj0
          simp only [List.head?_cons] at hj0
          have hat : isTermCh a = false := by
            by_cases hta : isTermCh a = true
            · unfold tbPair at hj0
              rw [hta, hws] at hj0
              simp at hj0
            · rw [Bool.not_eq_true] at hta
              exact hta
          cases rest with
          | nil => simp
          | cons d r2 =>
            simp only [List.head?_cons]
            unfold tbPair
            rw [hat]
            simp
      omega
    · by_cases hbk : (isTermCh c && headIsWS rest) = true
      · rw [show ssGo b cur (c :: rest) = (c :: cur).reverse :: ssGo true [] rest from by
          simp only [ssGo, hskip, Bool.false_eq_true, if_false, hbk, if_true]] at hp
        rcases List.mem_cons.mp hp with rfl | hp2
        · rw [show (c :: cur).reverse = cur.reverse ++ [c] from by simp]
          rw [countTB_append, hcur0]
          have hc0 : countTB [c] = 0 := rfl
          have hjc : tbJunction cur.reverse [c] = 0 := by
            unfold tbJunction at hj0 ⊢
            cases hl : cur.reverse.getLast? with
            | none => simp
            | some a =>
              rw [hl] at hj0
              simp only [List.head?_cons] at hj0
              simpa using hj0
          omega
        · exact ih true [] (by simp) p hp2
      · rw [show ssGo b cur (c :: rest) = ssGo false (c :: cur) rest from by
          simp only [ssGo, hskip, Bool.false_eq_true, if_false, hbk]] at hp
        refine ih false (c :: cur) ?_ p hp
        rw [show (c :: cur).reverse = cur.reverse ++ [c] from by simp,
          List.append_assoc]
        rw [show ([c] ++ rest : List Char) = c :: rest from rfl, h]
        cases rest with
        | nil => rfl
        | cons d r2 =>
          have hp0 : tbPair c d = 0 := by
            unfold tbPair
            rw [if_neg]
            intro hcd
            rw [show (isTermCh c && headIsWS (d :: r2)) =
                (isTermCh c && isWS d) from by simp [headIsWS]] at hbk
            exact hbk hcd
          simp [countTB, hp0]

/-- The sentence split produces `countTB cs + 1` pieces. -/
theorem splitSentences_length (cs : List Char) :
    (splitSentences cs).length = countTB cs + 1 :=
  ssGo_length cs false []

/-- No piece of the sentence split has an internal boundary. -/
theorem splitSentences_pieces (cs : List Char) :
    ∀ p ∈ splitSentences cs, countTB p = 0 :=
  ssGo_pieces_countTB cs false [] (by simp)

/-- A junction contributes at most one boundary. -/
theorem tbJunction_le_one (xs ys : List Char) : tbJunction xs ys ≤ 1 := by
  unfold tbJunction
  cases xs.getLast? with
  | none => simp
  | some a =>
    cases ys.head? with
    | none => simp
    | some b =>
      show tbPair a b ≤ 1
      unfold tbPair
      split <;> omega

/-- Joining boundary-free pieces with single spaces creates at most one
boundary per junction. -/
theorem countTB_joinSep_space :
    ∀ (ss : List String), (∀ s ∈ ss, countTB s.data = 0) →
      countTB (joinSep " " ss).data ≤ ss.length - 1
  | [], _ => by simp [joinSep, countTB]
  | [s], h => by
    simp only [joinSep, List.length_singleton]
    rw [h s (by simp)]
  | s :: s2 :: rest, h => by
    have ih := countTB_joinSep_space (s2 :: rest)
      (fun x hx => h x (List.mem_cons_of_mem s hx))
    rw [show joinSep " " (s :: s2 :: rest) =
      s ++ " " ++ joinSep " " (s2 :: rest) from rfl]
    rw [string_data_append, string_data_append, List.append_assoc]
    rw [show (" " : String).data = [' '] from rfl]
    rw [show ([' '] ++ (joinSep " " (s2 :: rest)).data : List Char) =
      ' ' :: (joinSep " " (s2 :: rest)).data from rfl]
    have hstep := countTB_append s.data (' ' :: (joinSep " " (s2 :: rest)).data)
    have hsp : countTB (' ' :: (joinSep " " (s2 :: rest)).data) =
        countTB (joinSep " " (s2 :: rest)).data :=
      countTB_cons_noterm ' ' rfl _
    have hj := tbJunction_le_one s.data (' ' :: (joinSep " " (s2 :: rest)).data)
    have hs0 : countTB s.data = 0 := h s (List.mem_cons_self s (s2 :: rest))
    simp only [List.length_cons] at ih ⊢
    omega

/-- `refineText` takes the first up to three sentences of the split and
joins them with single spaces; the result re-splits into at most three
pieces. -/
theorem refineText_spec (t : String) :
    refineText t = joinSep " " ((splitSentencesStr t).take 3) ∧
    (splitSentencesStr (refineText t)).length ≤ 3 := by
  have htake : (splitSentencesStr t).take (min 3 (splitSentencesStr t).length) =
      (splitSentencesStr t).take 3 := by
    rcases Nat.le_total 3 (splitSentencesStr t).length with h | h
    · rw [Nat.min_eq_left h]
    · rw [Nat.min_eq_right h, List.take_length, List.take_of_length_le h]
  have he : refineText t = joinSep " " ((splitSentencesStr t).take 3) := by
    unfold refineText
    rw [htake]
  refine ⟨he, ?_⟩
  rw [he]
  have hlenq : ∀ s : String, (splitSentencesStr s).length = countTB s.data + 1 := by
    intro s
    unfold splitSentencesStr
    rw [List.length_map, splitSentences_length]
  rw [hlenq]
  have hpieces : ∀ s ∈ (splitSentencesStr t).take 3, countTB s.data = 0 := by
    intro s hs
    have hs2 : s ∈ splitSentencesStr t := List.take_subset 3 _ hs
    rcases List.mem_map.mp hs2 with ⟨p, hp, rfl⟩
    exact splitSentences_pieces t.data p hp
  have hb := countTB_joinSep_space ((splitSentencesStr t).take 3) hpieces
  have hlen3 : ((splitSentencesStr t).take 3).length ≤ 3 := by
    rw [List.length_take]
    exact Nat.min_le_left 3 _
  omega

/-- **C7**.  Every output section's `refined_text` is the first up to three
sentences of its raw text (terminal-punctuation/whitespace split) joined by
single spaces, and therefore never contains more than three
terminal-punctuation-delimited segments. -/
theorem C7_theorem (l : List RankedSection) :
    ∀ s ∈ finalizeSections l,
      s.refined_text =
        joinSep " " ((splitSentencesStr s.section_text_raw).take 3) ∧
      (splitSentencesStr s.refined_text).length ≤ 3 := by
  intro s hs
  unfold finalizeSections at hs
  rcases List.mem_map.mp hs with ⟨p, hp, rfl⟩
  exact refineText_spec p.2.section_text_raw

/-- Witness for `C7_theorem` on a four-sentence raw text. -/
theorem C7_witness :
    ({ document := "d", page_number := 1, section_title := "T",
       importance_rank := 1, section_text_raw := "a. b. c. d.",
       refined_text := "a. b. c.", keywords := [] } : FinalSection).refined_text =
      joinSep " " ((splitSentencesStr
        ({ document := "d", page_number := 1, section_title := "T",
           importance_rank := 1, section_text_raw := "a. b. c. d.",
           refined_text := "a. b. c.", keywords := [] } : FinalSection).section_text_raw).take 3) ∧
    (splitSentencesStr
        ({ document := "d", page_number := 1, section_title := "T",
           importance_rank := 1, section_text_raw := "a. b. c. d.",
           refined_text := "a. b. c.", keywords := [] } : FinalSection).refined_text).length ≤ 3 :=
  C7_theorem [⟨"d", 1, "T", 0, "a. b. c. d.", []⟩]
    { document := "d", page_number := 1, section_title := "T",
      importance_rank := 1, section_text_raw := "a. b. c. d.",
      refined_text := "a. b. c.", keywords := [] }
    (by with_unfolding_all decide)

/-- Membership in `firstDedupAux`: an element of the input not yet seen. -/
theorem firstDedupAux_mem :
    ∀ (l seen : List String) (x : String),
      x ∈ firstDedupAux seen l ↔ x ∈ l ∧ x ∉ seen := by
  intro l
  induction l with
  | nil =>
    intro seen x
    simp [firstDedupAux]
  | cons a l ih =>
    intro seen x
    by_cases hmem : a ∈ seen
    · rw [show firstDedupAux seen (a :: l) = firstDedupAux seen l from by
        simp [firstDedupAux, hmem]]
      rw [ih]
      constructor
      · rintro ⟨h1, h2⟩
        exact ⟨List.mem_cons_of_mem a h1, h2⟩
      · rintro ⟨h1, h2⟩
        rcases List.mem_cons.mp h1 with rfl | h1
        · exact absurd hmem h2
        · exact ⟨h1, h2⟩
    · rw [show firstDedupAux seen (a :: l) = a :: firstDedupAux (a :: seen) l from by
        simp [firstDedupAux, hmem]]
      simp only [List.mem_cons, ih]
      constructor
      · rintro (rfl | ⟨h1, h2⟩)
        · exact ⟨Or.inl rfl, hmem⟩
        · exact ⟨Or.inr h1, fun hx => h2 (Or.inr hx)⟩
      · rintro ⟨h1 | h1, h2⟩
        · exact Or.inl h1
        · by_cases hxa : x = a
          · exact Or.inl hxa
          · refine Or.inr ⟨h1, fun hx => ?_⟩
            rcases hx with h | h
            · exact hxa h
            · exact h2 h
      
/-- `firstDedup` keeps exactly the elements of the input. -/
theorem firstDedup_mem (l : List String) (x : String) :
    x ∈ firstDedup l ↔ x ∈ l := by
  unfold firstDedup
  rw [firstDedupAux_mem]
  simp

/-- Appending a fresh element to the input appends it to the dedup. -/
theorem firstDedupAux_append_singleton (w : String) :
    ∀ (l seen : List String),
      firstDedupAux seen (l ++ [w]) =
        firstDedupAux seen l ++ (if w ∈ seen ∨ w ∈ l then [] else [w]) := by
  intro l
  induction l with
  | nil =>
    intro seen
    by_cases hw : w ∈ seen
    · simp [firstDedupAux, hw]
    · simp [firstDedupAux, hw]
  | cons a l ih =>
    intro seen
    by_cases ha : a ∈ seen
    · rw [show ((a :: l) ++ [w] : List String) = a :: (l ++ [w]) from rfl]
      rw [show firstDedupAux seen (a :: (l ++ [w])) =
        firstDedupAux seen (l ++ [w]) from by simp [firstDedupAux, ha]]
      rw [show firstDedupAux seen (a :: l) = firstDedupAux seen l from by
        simp [firstDedupAux, ha]]
      rw [ih]
      have hiff : (w ∈ seen ∨ w ∈ l) ↔ (w ∈ seen ∨ w ∈ a :: l) := by
        simp only [List.mem_cons]
        constructor
        · rintro (h | h)
          · exact Or.inl h
          · exact Or.inr (Or.inr h)
        · rintro (h | rfl | h)
          · exact Or.inl h
          · exact Or.inl ha
          · exact Or.inr h
      rw [if_congr hiff rfl rfl]
    · rw [show ((a :: l) ++ [w] : List String) = a :: (l ++ [w]) from rfl]
      rw [show firstDedupAux seen (a :: (l ++ [w])) =
        a :: firstDedupAux (a :: seen) (l ++ [w]) from by simp [firstDedupAux, ha]]
      rw [show firstDedupAux seen (a :: l) =
        a :: firstDedupAux (a :: seen) l from by simp [firstDedupAux, ha]]
      rw [ih]
      have hiff : (w ∈ a :: seen ∨ w ∈ l) ↔ (w ∈ seen ∨ w ∈ a :: l) := by
        simp only [List.mem_cons]
        constructor
        · rintro ((rfl | h) | h)
          · exact Or.inr (Or.inl rfl)
          · exact Or.inl h
          · exact Or.inr (Or.inr h)
        · rintro (h | rfl | h)
          · exact Or.inl (Or.inr h)
          · exact Or.inl (Or.inl rfl)
          · exact Or.inr h
      rw [if_congr hiff rfl rfl]
      simp

/-- `firstDedup` of `l ++ [w]`. -/
theorem firstDedup_append_singleton (l : List String) (w : String) :
    firstDedup (l ++ [w]) =
      if w ∈ l then firstDedup l else firstDedup l ++ [w] := by
  unfold firstDedup
  rw [firstDedupAux_append_singleton]
  by_cases hw : w ∈ l
  · simp [hw]
  · simp [hw]

/-- The keys after a `bump`: unchanged when present, appended when new. -/
theorem bump_map_fst (w : String) :
    ∀ acc : List (String × Nat),
      (bump w acc).map Prod.fst =
        if w ∈ acc.map Prod.fst then acc.map Prod.fst
        else acc.map Prod.fst ++ [w] := by
  intro acc
  induction acc with
  | nil => simp [bump]
  | cons xc rest ih =>
    obtain ⟨x, c⟩ := xc
    by_cases hxw : x = w
    · subst hxw
      rw [show bump x ((x, c) :: rest) = (x, c + 1) :: rest from by simp [bump]]
      simp
    · have hwx : ¬(w = x) := fun h => hxw h.symm
      rw [show bump w ((x, c) :: rest) = (x, c) :: bump w rest from by
        simp [bump, hxw]]
      simp only [List.map_cons, ih]
      by_cases hw : w ∈ rest.map Prod.fst
      · simp [hw, hwx]
      · simp [hw, hwx]

/-- What a `bump` does to each entry (for duplicate-free keys): entries
with other keys survive unchanged, the entry for `w` is incremented, and a
missing key is appended with count 1. -/
theorem bump_mem_spec (w : String) :
    ∀ (acc : List (String × Nat)), (acc.map Prod.fst).Nodup →
      ∀ pr ∈ bump w acc,
        (pr.1 ≠ w ∧ pr ∈ acc) ∨
        (∃ c, pr = (w, c + 1) ∧ (w, c) ∈ acc) ∨
        (pr = (w, 1) ∧ w ∉ acc.map Prod.fst) := by
  intro acc
  induction acc with
  | nil =>
    intro hnd pr hpr
    simp only [bump, List.mem_singleton] at hpr
    subst hpr
    exact Or.inr (Or.inr ⟨rfl, by simp⟩)
  | cons xc rest ih =>
    intro hnd pr hpr
    obtain ⟨x, c⟩ := xc
    by_cases hxw : x = w
    · subst hxw
      rw [show bump x ((x, c) :: rest) = (x, c + 1) :: rest from by
        simp [bump]] at hpr
      rcases List.mem_cons.mp hpr with rfl | hpr2
      · exact Or.inr (Or.inl ⟨c, rfl, List.mem_cons_self _ _⟩)
      · have hxnot : x ∉ rest.map Prod.fst := by
          simp only [List.map_cons, List.nodup_cons] at hnd
          exact hnd.1
        have hne : pr.1 ≠ x := by
          intro he
          exact hxnot (he ▸ List.mem_map.mpr ⟨pr, hpr2, rfl⟩)
        exact Or.inl ⟨hne, List.mem_cons_of_mem _ hpr2⟩
    · rw [show bump w ((x, c) :: rest) = (x, c) :: bump w rest from by
        simp [bump, hxw]] at hpr
      rcases List.mem_cons.mp hpr with rfl | hpr2
      · exact Or.inl ⟨hxw, List.mem_cons_self _ _⟩
      · have hnd2 : (rest.map Prod.fst).Nodup := by
          simp only [List.map_cons, List.nodup_cons] at hnd
          exact hnd.2
        rcases ih hnd2 pr hpr2 with ⟨h1, h2⟩ | ⟨c2, he, hm⟩ | ⟨he, hm⟩
        · exact Or.inl ⟨h1, List.mem_cons_of_mem _ h2⟩
        · exact Or.inr (Or.inl ⟨c2, he, List.mem_cons_of_mem _ hm⟩)
        · refine Or.inr (Or.inr ⟨he, ?_⟩)
          simp only [List.map_cons, List.mem_cons]
          rintro (h | h)
          · exact hxw h.symm
          · exact hm h

/-- A lower-cased character is never upper case (`Char.toLower` maps the
basic latin upper range into the lower range and leaves everything else
unchanged). -/
theorem isUpper_toLower (c : Char) : (Char.toLower c).isUpper = false := by
  unfold Char.toLower
  simp only []
  by_cases h : c.toNat ≥ 65 ∧ c.toNat ≤ 90
  · rw [if_pos h]
    obtain ⟨h1, h2⟩ := h
    have hvalid : (Char.toNat c + 32).isValidChar := Or.inl (by omega)
    have hval : (Char.ofNat (Char.toNat c + 32)).toNat = Char.toNat c + 32 := by
      rw [Char.ofNat, dif_pos hvalid]
      rfl
    have hle : ¬((Char.ofNat (Char.toNat c + 32)).val ≤ 90) := by
      rw [UInt32.le_def, BitVec.le_def]
      intro hcon
      have h90 : ((90 : UInt32)).toBitVec.toNat = 90 := rfl
      have hx : (Char.ofNat (Char.toNat c + 32)).val.toBitVec.toNat =
          (Char.ofNat (Char.toNat c + 32)).toNat := rfl
      rw [h90, hx, hval] at hcon
      omega
    unfold Char.isUpper
    rw [Bool.and_eq_false_iff]
    right
    exact decide_eq_false hle
  · rw [if_neg h]
    unfold Char.isUpper
    rw [Bool.and_eq_false_iff]
    rcases Nat.lt_or_ge c.toNat 65 with hlt | hge
    · left
      refine decide_eq_false ?_
      intro hcon
      rw [ge_iff_le, UInt32.le_def, BitVec.le_def] at hcon
      have h65 : ((65 : UInt32)).toBitVec.toNat = 65 := rfl
      have hx : c.val.toBitVec.toNat = c.toNat := rfl
      rw [h65, hx] at hcon
      omega
    · right
      refine decide_eq_false ?_
      intro hcon
      rw [UInt32.le_def, BitVec.le_def] at hcon
      have h90 : ((90 : UInt32)).toBitVec.toNat = 90 := rfl
      have hx : c.val.toBitVec.toNat = c.toNat := rfl
      rw [h90, hx] at hcon
      exact h ⟨hge, hcon⟩

/-- Invariant of the `Counter` fold: the keys are the distinct words in
first-encounter order, each mapped to its number of occurrences so far. -/
theorem buildCounter_invariant :
    ∀ (ws : List String) (acc : List (String × Nat)) (processed : List String),
      acc.map Prod.fst = firstDedup processed →
      (∀ pr ∈ acc, pr.2 = processed.count pr.1) →
      (List.foldl (fun a w => bump w a) acc ws).map Prod.fst =
          firstDedup (processed ++ ws) ∧
      ∀ pr ∈ List.foldl (fun a w => bump w a) acc ws,
        pr.2 = (processed ++ ws).count pr.1 := by
  intro ws
  induction ws with
  | nil =>
    intro acc processed hfst hcnt
    rw [List.append_nil]
    exact ⟨hfst, hcnt⟩
  | cons w ws ih =>
    intro acc processed hfst hcnt
    have hnd : (acc.map Prod.fst).Nodup := by
      rw [hfst]
      exact firstDedup_nodup processed
    have hmemiff : w ∈ acc.map Prod.fst ↔ w ∈ processed := by
      rw [hfst]
      exact firstDedup_mem processed w
    have hfst2 : (bump w acc).map Prod.fst = firstDedup (processed ++ [w]) := by
      rw [bump_map_fst, firstDedup_append_singleton]
      by_cases hw : w ∈ processed
      · rw [if_pos (hmemiff.mpr hw), if_pos hw, hfst]
      · rw [if_neg (fun hh => hw (hmemiff.mp hh)), if_neg hw, hfst]
    have hcnt2 : ∀ pr ∈ bump w acc, pr.2 = (processed ++ [w]).count pr.1 := by
      intro pr hpr
      rcases bump_mem_spec w acc hnd pr hpr with ⟨h1, h2⟩ | ⟨c2, he, hm⟩ | ⟨he, hm⟩
      · rw [List.count_append, hcnt pr h2]
        have hz : List.count pr.1 [w] = 0 := by
          simp [List.count_cons, h1]
        rw [hz]
        omega
      · subst he
        rw [List.count_append]
        have hc2 : c2 = processed.count w := hcnt (w, c2) hm
        have ho : List.count w [w] = 1 := by simp
        simp only [ho]
        omega
      · subst he
        rw [List.count_append]
        have hcw : processed.count w = 0 := by
          rw [List.count_eq_zero]
          intro hmem
          exact hm (hmemiff.mpr hmem)
        have ho : List.count w [w] = 1 := by simp
        simp only [ho, hcw]
    have hres := ih (bump w acc) (processed ++ [w]) hfst2 hcnt2
    rwa [List.append_assoc, List.singleton_append] at hres

/-- The `Counter`: distinct words in first-encounter order with their
occurrence counts. -/
theorem buildCounter_spec (ws : List String) :
    (buildCounter ws).map Prod.fst = firstDedup ws ∧
    ∀ pr ∈ buildCounter ws, pr.2 = ws.count pr.1 := by
  have h := buildCounter_invariant ws [] [] rfl (by simp)
  simpa using h

/-- Characters of the runs come from the scanned list. -/
theorem runsByAux_chars (p : Char → Bool) :
    ∀ (cs cur : List Char), ∀ r ∈ runsByAux p cur cs, ∀ c ∈ r, c ∈ cur ∨ c ∈ cs := by
  intro cs
  induction cs with
  | nil =>
    intro cur r hr c hc
    cases cur with
    | nil => simp [runsByAux] at hr
    | cons a as =>
      simp only [runsByAux, List.mem_singleton] at hr
      subst hr
      exact Or.inl (List.mem_reverse.mp hc)
  | cons c0 rest ih =>
    intro cur r hr c hc
    by_cases hp : p c0 = true
    · rw [show runsByAux p cur (c0 :: rest) = runsByAux p (c0 :: cur) rest from by
        simp [runsByAux, hp]] at hr
      rcases ih (c0 :: cur) r hr c hc with h | h
      · rcases List.mem_cons.mp h with rfl | h
        · exact Or.inr (List.mem_cons_self c rest)
        · exact Or.inl h
      · exact Or.inr (List.mem_cons_of_mem c0 h)
    · cases hcur : cur with
      | nil =>
        rw [hcur] at hr
        rw [show runsByAux p [] (c0 :: rest) = runsByAux p [] rest from by
          simp [runsByAux, hp]] at hr
        rcases ih [] r hr c hc with h | h
        · simp at h
        · exact Or.inr (List.mem_cons_of_mem c0 h)
      | cons a as =>
        rw [hcur] at hr
        rw [show runsByAux p (a :: as) (c0 :: rest) =
          (a :: as).reverse :: runsByAux p [] rest from by simp [runsByAux, hp]] at hr
        rcases List.mem_cons.mp hr with rfl | hr2
        · rw [← hcur]
          exact Or.inl (List.mem_reverse.mp (hcur ▸ hc))
        · rcases ih [] r hr2 c hc with h | h
          · simp at h
          · exact Or.inr (List.mem_cons_of_mem c0 h)

/-- Characters of `runsBy` come from the input. -/
theorem runsBy_chars (p : Char → Bool) (cs : List Char) :
    ∀ r ∈ runsBy p cs, ∀ c ∈ r, c ∈ cs := by
  intro r hr c hc
  rcases runsByAux_chars p cs [] r hr c hc with h | h
  · simp at h
  · exact h

/-- Tokens matched by `\b\w{3,15}\b` on the lowercased text: length between
3 and 15, all characters lower-cased (never upper case). -/
theorem kwTokens_mem_spec (text : String) :
    ∀ k ∈ kwTokens text, 3 ≤ k.length ∧ k.length ≤ 15 ∧
      ∀ c ∈ k.data, c.isUpper = false := by
  intro k hk
  unfold kwTokens at hk
  rcases List.mem_map.mp hk with ⟨r, hr, rfl⟩
  rcases List.mem_filter.mp hr with ⟨hrm, hrp⟩
  obtain ⟨h3, h15⟩ := Bool.and_eq_true_iff.mp hrp
  refine ⟨by simpa using h3, by simpa using h15, ?_⟩
  intro c hc
  have hcmem : c ∈ (pylower text).data := runsBy_chars isWordChar _ r hrm c hc
  unfold pylower at hcmem
  rcases List.mem_map.mp hcmem with ⟨c0, hc0, rfl⟩
  exact isUpper_toLower c0

/-- Candidate keywords: non-empty, purely alphabetic, not stop words,
length between 3 and 15, and never upper case. -/
theorem kwWords_mem_spec (text : String) :
    ∀ k ∈ kwWords text,
      k.data ≠ [] ∧ k.data.all Char.isAlpha = true ∧ k ∉ STOP_WORDS ∧
      3 ≤ k.length ∧ k.length ≤ 15 ∧ ∀ c ∈ k.data, c.isUpper = false := by
  intro k hk
  unfold kwWords at hk
  rcases List.mem_filter.mp hk with ⟨hkt, hkp⟩
  obtain ⟨halpha, hstop⟩ := Bool.and_eq_true_iff.mp hkp
  obtain ⟨h3, h15, hlow⟩ := kwTokens_mem_spec text k hkt
  refine ⟨?_, halpha, ?_, h3, h15, hlow⟩
  · intro hnil
    rw [show k.length = k.data.length from rfl, hnil] at h3
    simp at h3
  · intro hmem
    rw [Bool.not_eq_true'] at hstop
    have hc : STOP_WORDS.contains k = true := by
      rw [List.contains_iff_exists_mem_beq]
      exact ⟨k, hmem, by simp⟩
    rw [hc] at hstop
    simp at hstop

/-- **C8**.  `extract_keywords` returns at most `n` tokens; every returned
token is a non-empty, purely alphabetic, non-stop-word, lowercase token of
length 3 to 15; the result is the prefix of the counter entries stably
sorted by count descending (counts non-increasing, each entry's count being
the word's frequency, ties kept in counter order, which is first-encounter
order of the distinct words); and on the spec's example the top keyword is
"cat" with frequency 2, ahead of every frequency-1 word. -/
theorem C8_theorem (text : String) (n : Nat) :
    (extract_keywords text n).length ≤ n ∧
    (∀ k ∈ extract_keywords text n,
      k.data ≠ [] ∧ k.data.all Char.isAlpha = true ∧ k ∉ STOP_WORDS ∧
      3 ≤ k.length ∧ k.length ≤ 15 ∧ ∀ c ∈ k.data, c.isUpper = false) ∧
    extract_keywords text n = ((mostCommonPairs text).take n).map Prod.fst ∧
    List.Sorted (· ≥ ·) ((mostCommonPairs text).map Prod.snd) ∧
    (∀ p ∈ mostCommonPairs text, p.2 = (kwWords text).count p.1) ∧
    (∀ c : Nat, (mostCommonPairs text).filter (fun p => decide (p.2 = c)) =
      (buildCounter (kwWords text)).filter (fun p => decide (p.2 = c))) ∧
    (buildCounter (kwWords text)).map Prod.fst = firstDedup (kwWords text) ∧
    extract_keywords "The cat sat on the mat. The cat ran." 2 = ["cat", "sat"] := by
  refine ⟨?_, ?_, rfl, ?_, ?_, ?_, (buildCounter_spec (kwWords text)).1,
    by with_unfolding_all decide⟩
  · unfold extract_keywords
    rw [List.length_map, List.length_take]
    exact Nat.min_le_left n _
  · intro k hk
    unfold extract_keywords at hk
    rcases List.mem_map.mp hk with ⟨pr, hpr, rfl⟩
    have hpr2 : pr ∈ mostCommonPairs text := List.take_subset n _ hpr
    have hpr3 : pr ∈ buildCounter (kwWords text) :=
      (List.perm_insertionSort countGe _).mem_iff.mp hpr2
    have hfst : pr.1 ∈ (buildCounter (kwWords text)).map Prod.fst :=
      List.mem_map.mpr ⟨pr, hpr3, rfl⟩
    rw [(buildCounter_spec (kwWords text)).1] at hfst
    exact kwWords_mem_spec text pr.1 ((firstDedup_mem _ _).mp hfst)
  · have hs : List.Sorted countGe (mostCommonPairs text) :=
      List.sorted_insertionSort countGe _
    exact (List.pairwise_map).mpr (hs.imp (fun h => h))
  · intro p hp
    exact (buildCounter_spec (kwWords text)).2 p
      ((List.perm_insertionSort countGe _).mem_iff.mp hp)
  · intro c
    exact insertionSort_filter_key countGe Prod.snd (fun a b => Iff.rfl) c _

/-- Witness for `C8_theorem`: the concrete element facts at `"cat"`. -/
theorem C8_witness :
    "cat".data ≠ [] ∧ "cat".data.all Char.isAlpha = true ∧
    "cat" ∉ STOP_WORDS ∧ 3 ≤ "cat".length ∧ "cat".length ≤ 15 ∧
    (∀ c ∈ "cat".data, c.isUpper = false) := by
  have h := C8_theorem "The cat sat on the mat. The cat ran." 2
  exact h.2.1 "cat" (by with_unfolding_all decide)
